import Mathlib

/-!
Verification of the SQL query authorization engine of the HSQLChatbot
repository (package db: authorization.go, db.go, table_info.go,
user_info.go, plus the mock schema of authorization_test.go).

Modelling conventions, fixed once for the whole development:

* Go pointers to TableInfoV2 objects are heap addresses (Nat indices into
  an explicit heap list).  Mutation of a descriptor is an in-place heap
  update, so aliasing between scopes is observable, as in Go.
* A Go value of type pointer-to-OrderedMap is modelled as Option Scope,
  where Scope is an insertion-ordered association list; none models the
  nil pointer.  Calling any ordered-map method on a nil map, assigning to
  an entry of a nil builtin map, dereferencing a nil pointer and indexing
  out of range are Go runtime panics, modelled by Fault.crash.  Errors
  returned by the Go functions themselves are Fault.goError.
* Iterating an ordered map while deleting the entry under the cursor
  continues with the following entries: the linked-list iterator of
  github.com/elliotchance/orderedmap/v3 holds the current element, so its
  next pointer survives the removal.  The repository's own test
  TestUpdateUnauthorizedTablesByUnion (case "Virtual table with multiple
  authorized tables fully removed") relies on several deletions happening
  in one sweep.
* Recursion depth is made explicit by a fuel argument; exhausting it is
  Fault.crash "stack overflow".  Go has no fuel, but its stack is finite
  and TableInfoV2.Clone genuinely overflows on the cyclic descriptors
  that the data model allows, so fuel is the honest rendering.
* The functions DeepCopy and the SchemaService interface are referenced
  by authorization.go but their definitions are not part of the sources;
  they are modelled from the spec where so marked.  GetColumns is passed
  as an explicit function argument; mockGetColumns below is the schema of
  MockSchemaService in authorization_test.go.
* authorization.go uses the free identifiers role and id inside functions
  that receive a UserContext value, declares getAuthorizationColumn with
  result type []string while returning plain strings, and binds
  authColStrs where authColStr is read.  The only consistent reading,
  used by the tests, is: role and id are the caller's role and numeric
  identity and the authorization column is a single string; the embedding
  adopts it.
-/

/-- Outcome of a Go computation that did not produce a value: either an
error value returned by the function, or a runtime panic. -/
inductive Fault where
  | goError (msg : String)
  | crash (msg : String)
deriving Repr, DecidableEq

/-- Caller identity: the UserInfo record of user_info.go (role and numeric
identity), which all of StudentInfo, ProfessorInfo and AdminInfo embed. -/
structure UserInfo where
  id : Int
  role : String
deriving Repr, DecidableEq

/-- Join types of the PostgreSQL parse tree that authorization.go
distinguishes. -/
inductive JoinType where
  | inner | left | right | full | uniqueInner | uniqueOuter | otherJoin
deriving Repr, DecidableEq

/-- Boolean operators of a BoolExpr node. -/
inductive BoolOp where
  | andExpr | orExpr | notExpr | otherBool
deriving Repr, DecidableEq

/-- A_Expr kinds that authorization.go distinguishes (AEXPR_OP, AEXPR_IN,
everything else). -/
inductive AExprKind where
  | op | inList | otherKind
deriving Repr, DecidableEq

/-- Set operations of a SelectStmt. -/
inductive SetOp where
  | none | union | intersect | exceptOp
deriving Repr, DecidableEq

/-- An Alias node: alias name plus the column-name list; a list entry is
none when the colnames element is not a String node (the Go code skips
those). -/
structure AliasNode where
  aliasname : String
  colnames : Option (List (Option String))
deriving Repr, DecidableEq

mutual
/-- Parse-tree node, covering exactly the variants that the authorization
code of the repository inspects; Node.otherNode stands for every variant
the dispatch of AuthorizeNode matches with an empty case body or does not
match at all. -/
inductive Node : Type where
  | selectStmt (s : SelectStmt)
  | boolExpr (op : BoolOp) (args : List Node)
  | aExpr (kind : AExprKind) (name : List Node) (lexpr : Option Node) (rexpr : Option Node)
  | subLink (subselect : Option Node)
  | joinExpr (jointype : JoinType) (isNatural : Bool) (larg : Option Node) (rarg : Option Node)
      (usingClause : Bool) (quals : Option Node) (al : Option AliasNode)
  | fromExpr (fromlist : List Node) (quals : Option Node)
  | rangeVar (relname : String) (al : Option AliasNode)
  | rangeSubselect (lateral : Bool) (subquery : Option Node) (al : Option AliasNode)
  | withClause (ctes : List Node)
  | commonTableExpr (query : Option Node)
  | columnRef (fields : List Node)
  | strNode (sval : String)
  | intNode (ival : Int)
  | floatNode (fval : String)
  | aConst (ival : Option Int)
  | listNode (items : List Node)
  | rowExpr (args : List Node)
  | resTarget (nameStr : String) (val : Option Node)
  | aStar
  | otherNode

/-- SELECT statement node with the fields authorizeSelectStmt reads.
withCtes models GetWithClause().GetCtes() (none when the with clause is
absent); intoClause models GetIntoClause() != nil. -/
inductive SelectStmt : Type where
  | mk (withCtes : Option (List Node)) (intoClause : Bool) (op : SetOp)
      (larg : Option SelectStmt) (rarg : Option SelectStmt)
      (fromClause : List Node) (whereClause : Option Node)
      (havingClause : Option Node) (targetList : List Node)
end

def SelectStmt.withCtes : SelectStmt → Option (List Node)
  | .mk w _ _ _ _ _ _ _ _ => w

def SelectStmt.intoClause : SelectStmt → Bool
  | .mk _ i _ _ _ _ _ _ _ => i

def SelectStmt.op : SelectStmt → SetOp
  | .mk _ _ o _ _ _ _ _ _ => o

def SelectStmt.larg : SelectStmt → Option SelectStmt
  | .mk _ _ _ l _ _ _ _ _ => l

def SelectStmt.rarg : SelectStmt → Option SelectStmt
  | .mk _ _ _ _ r _ _ _ _ => r

def SelectStmt.fromClause : SelectStmt → List Node
  | .mk _ _ _ _ _ f _ _ _ => f

def SelectStmt.whereClause : SelectStmt → Option Node
  | .mk _ _ _ _ _ _ w _ _ => w

def SelectStmt.havingClause : SelectStmt → Option Node
  | .mk _ _ _ _ _ _ _ h _ => h

def SelectStmt.targetList : SelectStmt → List Node
  | .mk _ _ _ _ _ _ _ _ t => t

/-- ColumnInfo of table_info.go: column name plus the address of the
source table descriptor. -/
structure ColInfo where
  name : String
  source : Nat
deriving Repr, DecidableEq

/-- TableInfoV2 of table_info.go.  columns and unauth are Option because
the corresponding Go fields are pointers to ordered maps and may be nil;
the map contents are insertion-ordered association lists.  unauth values
are addresses of table descriptors. -/
structure TableObj where
  name : String
  tblAlias : String
  columns : Option (List (String × ColInfo))
  hasStar : Bool
  unauth : Option (List (String × Nat))
  authorized : Bool
  isDatabase : Bool
deriving Repr, DecidableEq

/-- The heap of table descriptors; a Go pointer is an index into it. -/
abbrev Heap := List TableObj

/-- An ordered map from alias to table descriptor address (the contents of
a non-nil OrderedMap[string, *TableInfoV2]). -/
abbrev Scope := List (String × Nat)

/-- State-and-error monad of the embedding: a computation reads and
mutates the heap and can stop with a Fault. -/
def M (α : Type) : Type := Heap → Except Fault (α × Heap)

instance : Monad M where
  pure a := fun h => .ok (a, h)
  bind x f := fun h =>
    match x h with
    | .error e => .error e
    | .ok (a, h1) => f a h1

/-- Stop with a Go-level returned error. -/
def M.goErr {α : Type} (msg : String) : M α := fun _ => .error (.goError msg)

/-- Stop with a runtime panic. -/
def M.crash {α : Type} (msg : String) : M α := fun _ => .error (.crash msg)

/-- Read the descriptor at an address. -/
def readObj (a : Nat) : M TableObj := fun h =>
  match h.get? a with
  | some t => .ok (t, h)
  | none => .error (.crash "invalid address")

/-- Overwrite the descriptor at an address. -/
def writeObj (a : Nat) (t : TableObj) : M Unit := fun h => .ok ((), h.set a t)

/-- Allocate a fresh descriptor, returning its address. -/
def allocObj (t : TableObj) : M Nat := fun h => .ok (h.length, h ++ [t])

/-- Dereference a possibly-nil ordered map, panicking on nil exactly where
Go would dereference the nil receiver. -/
def getMap {β : Type} (m : Option β) : M β :=
  match m with
  | some s => pure s
  | none => M.crash "nil ordered map dereference"

/-- Ordered-map lookup: the first binding of the key. -/
def omGet {β : Type} : List (String × β) → String → Option β
  | [], _ => Option.none
  | e :: rest, k => if e.1 = k then some e.2 else omGet rest k

/-- Ordered-map Set: updates the value in place when the key is present
(keeping its position), appends otherwise. -/
def omSet {β : Type} (m : List (String × β)) (k : String) (v : β) : List (String × β) :=
  match m with
  | [] => [(k, v)]
  | e :: rest => if e.1 = k then (k, v) :: rest else e :: omSet rest k v

/-- Ordered-map Delete: removes the binding of the key, if present. -/
def omDelete {β : Type} (m : List (String × β)) (k : String) : List (String × β) :=
  match m with
  | [] => []
  | e :: rest => if e.1 = k then rest else e :: omDelete rest k

/-- Keys of an ordered map in insertion order. -/
def omKeys {β : Type} (m : List (String × β)) : List String := m.map (fun e => e.1)

/-- isPublicTable of db.go: the six-name public list (faculty, program,
course, course_program, course_class, course_class_schedule). -/
def isPublicTable (tableName : String) : Bool :=
  tableName = "faculty" || tableName = "program" || tableName = "course" ||
  tableName = "course_program" || tableName = "course_class" ||
  tableName = "course_class_schedule"

/-- getAuthorizationColumn of authorization.go: the column whose equality
with the caller's identity authorizes a table for the caller's role, or
the empty string for admin, for the eight tables its public switch names,
and for every unmapped pair. -/
def getAuthorizationColumn (name : String) (u : UserInfo) : String :=
  if u.role = "admin" then ""
  else if name = "program" || name = "semester" || name = "course" ||
      name = "course_program" || name = "course_class" ||
      name = "course_class_schedule" || name = "course_schedule_instructor" ||
      name = "faculty" then ""
  else if u.role = "student" then
    if name = "student" then "id"
    else if name = "administrative_class" then "id"
    else if name = "student_course_class" then "student_id"
    else if name = "student_scholarship" then "student_id"
    else ""
  else if u.role = "professor" then
    if name = "professor" then "id"
    else if name = "administrative_class" then "advisor_id"
    else if name = "course_class" then "professor_id"
    else if name = "course_schedule_instructor" then "professor_id"
    else ""
  else ""

/-- getStringValueFromNode of authorization.go. -/
def getStringValueFromNode (node : Option Node) : String :=
  match node with
  | Option.none => ""
  | some n =>
    match n with
    | .strNode s => s
    | .intNode i => toString i
    | .floatNode f => f
    | .columnRef fields =>
      String.intercalate "." (fields.filterMap (fun f =>
        match f with
        | .strNode s => some s
        | _ => Option.none))
    | .aConst _ => ""
    | _ => ""

/-- GetColumnRef on a node: the fields list when the node is a ColumnRef,
nil otherwise. -/
def getColumnRef (n : Option Node) : Option (List Node) :=
  match n with
  | some (.columnRef fields) => some fields
  | _ => Option.none

/-- GetAConst on a node. -/
def getAConst (n : Option Node) : Option (Option Int) :=
  match n with
  | some (.aConst iv) => some iv
  | _ => Option.none

/-- GetString_ on a node. -/
def getStringField (n : Node) : Option String :=
  match n with
  | .strNode s => some s
  | _ => Option.none

/-- extractColumnRefAndConst of authorization.go: the column reference and
the constant of an A_Expr when one operand is a ColumnRef and the other an
A_Const, in either order. -/
def extractColumnRefAndConst (lexpr rexpr : Option Node) :
    Option (List Node) × Option (Option Int) :=
  if lexpr.isNone || rexpr.isNone then (Option.none, Option.none)
  else if (getColumnRef lexpr).isSome && (getAConst rexpr).isSome then
    (getColumnRef lexpr, getAConst rexpr)
  else if (getAConst lexpr).isSome && (getColumnRef rexpr).isSome then
    (getColumnRef rexpr, getAConst lexpr)
  else (Option.none, Option.none)

/-- GetColumns of the MockSchemaService in authorization_test.go: the test
schema used throughout for concrete runs. -/
def mockGetColumns (tableName : String) : List String :=
  if tableName = "student" then
    ["id", "code", "name", "gender", "birthday", "email", "administrative_class_id"]
  else if tableName = "professor" then
    ["id", "name", "email", "academic_rank", "degree", "department_id"]
  else if tableName = "course" then
    ["id", "code", "name", "english_name", "credits", "practice_hours",
     "theory_hours", "self_learn_hours", "prerequisite"]
  else if tableName = "administrative_class" then
    ["id", "name", "program_id", "advisor_id"]
  else []

/-- Result record of the node authorizers (AuthorizationResult of
authorization.go, restricted to the fields the code reads). -/
structure AuthResult where
  authorized : Bool
  tables : Option Scope
  targetList : Option (List Node)

/-- getAliasOfColumn of table_info.go, walking a column list: returns the
alias under which the given origin column name is exposed, recursing
through non-database source tables.  The fuel bounds loop steps and
recursion depth together; exhaustion is the stack-overflow panic. -/
def getAliasOfColumnAux : Nat → List (String × ColInfo) → String → M String
  | 0, _, _ => M.crash "stack overflow"
  | _ + 1, [], _ => pure ""
  | fuel + 1, (al, col) :: rest, str => do
    let src ← readObj col.source
    if src.isDatabase then
      if col.name = str then pure al else getAliasOfColumnAux fuel rest str
    else do
      let innerCols ← getMap src.columns
      let r ← getAliasOfColumnAux fuel innerCols str
      if r = "" then getAliasOfColumnAux fuel rest str else pure al

/-- getAliasOfColumn entry point on a table descriptor address. -/
def getAliasOfColumn (fuel : Nat) (addr : Nat) (str : String) : M String := do
  let t ← readObj addr
  let cols ← getMap t.columns
  getAliasOfColumnAux fuel cols str

/-- Clone of table_info.go, on a list of descriptor addresses (cloning one
descriptor is the singleton case; the list form is what cloning an
obligation map needs).  Cloned columns point to the clone itself as their
source table, exactly as ColumnInfo.Clone receives the fresh clone; the
Authorized field is not copied (the Go composite literal omits it).
Obligation maps are cloned recursively, so a cyclic descriptor exhausts
the fuel: the stack overflow that table_info.go's own Clone comment warns
about. -/
def cloneTables : Nat → List Nat → M (List Nat)
  | 0, _ => M.crash "stack overflow"
  | _ + 1, [] => pure []
  | fuel + 1, addr :: rest => do
    let t ← readObj addr
    let ca ← allocObj { name := t.name, tblAlias := t.tblAlias, columns := Option.none,
                        hasStar := t.hasStar, unauth := Option.none, authorized := false,
                        isDatabase := t.isDatabase }
    let newCols : Option (List (String × ColInfo)) :=
      match t.columns with
      | Option.none => Option.none
      | some cols => some (cols.map (fun e => (e.1, ColInfo.mk e.2.name ca)))
    let newUnauth ← match t.unauth with
      | Option.none => pure Option.none
      | some entries => do
          let vals ← cloneTables fuel (entries.map (fun e => e.2))
          pure (some (List.zip (entries.map (fun e => e.1)) vals))
    writeObj ca { name := t.name, tblAlias := t.tblAlias, columns := newCols,
                  hasStar := t.hasStar, unauth := newUnauth, authorized := false,
                  isDatabase := t.isDatabase }
    let others ← cloneTables fuel rest
    pure (ca :: others)

/-- Modelled from the spec: DeepCopy is called by authorizeBoolExpr and
authorizeAExpr but its definition is not among the sources; per the
lifecycle section of the spec, scopes are structurally deep-copied before
a predicate evaluates against a transient candidate scope.  It is
modelled as the entry-wise clone (table_info.go's Clone) of the ordered
scope map, preserving keys and order; the deep copy of a nil map is nil. -/
def DeepCopy (fuel : Nat) (tables : Option Scope) : M (Option Scope) :=
  match tables with
  | Option.none => pure Option.none
  | some s => do
    let vals ← cloneTables fuel (s.map (fun e => e.2))
    pure (some (List.zip (s.map (fun e => e.1)) vals))

/-- MergeMaps of authorization.go: iterates src setting every entry into
dst and returns dst.  Iterating a nil src panics; setting into a nil dst
panics unless src was empty; the doc comment's promise to initialize a
nil dst is not implemented. -/
def MergeMaps (dst src : Option Scope) : M (Option Scope) :=
  match src with
  | Option.none => M.crash "nil ordered map dereference"
  | some srcL =>
    match srcL with
    | [] => pure dst
    | _ =>
      match dst with
      | Option.none => M.crash "nil ordered map dereference"
      | some dstL => pure (some (srcL.foldl (fun acc e => omSet acc e.1 e.2) dstL))

/-- Insert into the inner set of the collected alias map (a Go
map[string]bool used only for membership). -/
def innerInsert (l : List String) (x : String) : List String :=
  if x ∈ l then l else l ++ [x]

/-- Write tableUnAuth[tAlias][x] = true: panics when the outer Go map has
no entry for tAlias, because assigning into the resulting nil map is a
runtime panic. -/
def outerInsert (o : List (String × List String)) (tAlias x : String) :
    M (List (String × List String)) :=
  match omGet o tAlias with
  | some inner => pure (omSet o tAlias (innerInsert inner x))
  | Option.none => M.crash "assignment to entry in nil map"

/-- First pass of both combinators over one branch table's obligation
entries: record each obligation's Alias field under the branch table's
Alias field. -/
def collectUnauthEntries (o : List (String × List String)) (tAlias : String) :
    List (String × Nat) → M (List (String × List String))
  | [] => pure o
  | (_, ua) :: rest => do
    let uObj ← readObj ua
    let o1 ← outerInsert o tAlias uObj.tblAlias
    collectUnauthEntries o1 tAlias rest

/-- First pass over the tables of one branch scope. -/
def collectBranchTables (o : List (String × List String)) :
    List (String × Nat) → M (List (String × List String))
  | [] => pure o
  | (_, a) :: rest => do
    let t ← readObj a
    let entries ← getMap t.unauth
    let o1 ← collectUnauthEntries o t.tblAlias entries
    collectBranchTables o1 rest

/-- First pass over the whole branch list; iterating a nil branch scope
panics. -/
def collectBranches (o : List (String × List String)) :
    List (Option Scope) → M (List (String × List String))
  | [] => pure o
  | b :: rest => do
    let bl ← getMap b
    let o1 ← collectBranchTables o bl
    collectBranches o1 rest

/-- Zeroth pass: one empty inner set per destination table's Alias field. -/
def buildOuter (o : List (String × List String)) :
    List (String × Nat) → M (List (String × List String))
  | [] => pure o
  | (_, a) :: rest => do
    let t ← readObj a
    buildOuter (omSet o t.tblAlias []) rest

/-- Deletion sweep of UpdateUnauthorizedTablesByUnion over one
destination descriptor's obligation map: walks the snapshot of entries,
skipping entries whose key has already been deleted, and deletes (by the
obligation's Alias field) every obligation recorded in no branch. -/
def unionSweep (seen : List (String × List String)) (tAlias : String)
    (cur : List (String × Nat)) : List (String × Nat) → M (List (String × Nat))
  | [] => pure cur
  | (ek, ua) :: rest =>
    if (omGet cur ek).isSome then do
      let uObj ← readObj ua
      let present :=
        match omGet seen tAlias with
        | some inner => inner.contains uObj.tblAlias
        | Option.none => false
      if present then unionSweep seen tAlias cur rest
      else unionSweep seen tAlias (omDelete cur uObj.tblAlias) rest
    else unionSweep seen tAlias cur rest

/-- Deletion sweep of UpdateUnauthorizedTablesByIntersection over one
destination descriptor: deletes the first obligation that some branch
still records as unauthorized, then stops (the loop breaks after one
deletion). -/
def intersectionSweep (seen : List (String × List String)) (tAlias : String)
    (cur : List (String × Nat)) : List (String × Nat) → M (List (String × Nat))
  | [] => pure cur
  | (ek, ua) :: rest =>
    if (omGet cur ek).isSome then do
      let uObj ← readObj ua
      let present :=
        match omGet seen tAlias with
        | some inner => inner.contains uObj.tblAlias
        | Option.none => false
      if present then pure (omDelete cur uObj.tblAlias)
      else intersectionSweep seen tAlias cur rest
    else intersectionSweep seen tAlias cur rest

/-- Second pass of the union combinator over the destination scope. -/
def unionApply (seen : List (String × List String)) :
    List (String × Nat) → M Unit
  | [] => pure ()
  | (_, a) :: rest => do
    let t ← readObj a
    let entries ← getMap t.unauth
    let cur ← unionSweep seen t.tblAlias entries entries
    writeObj a { t with unauth := some cur }
    unionApply seen rest

/-- Second pass of the intersection combinator over the destination
scope. -/
def intersectionApply (seen : List (String × List String)) :
    List (String × Nat) → M Unit
  | [] => pure ()
  | (_, a) :: rest => do
    let t ← readObj a
    let entries ← getMap t.unauth
    let cur ← intersectionSweep seen t.tblAlias entries entries
    writeObj a { t with unauth := some cur }
    intersectionApply seen rest

/-- UpdateUnauthorizedTablesByUnion of authorization.go: a destination
obligation survives exactly when some branch still records an obligation
of the same alias for the same table. -/
def UpdateUnauthorizedTablesByUnion (dst : Option Scope)
    (tablesList : List (Option Scope)) : M Unit := do
  let d ← getMap dst
  let o0 ← buildOuter [] d
  let o1 ← collectBranches o0 tablesList
  unionApply o1 d

/-- UpdateUnauthorizedTablesByIntersection of authorization.go: deletes,
per destination table, the first obligation that some branch still
records as unauthorized. -/
def UpdateUnauthorizedTablesByIntersection (dst : Option Scope)
    (tablesList : List (Option Scope)) : M Unit := do
  let d ← getMap dst
  let o0 ← buildOuter [] d
  let o1 ← collectBranches o0 tablesList
  intersectionApply o1 d

/-- createColumnFromSourceTable of table_info.go, acting on the
descriptor value under construction: initializes its column map if nil,
and adds the column when the source table's column map (a panic if nil)
contains the origin name. -/
def createColumnFromSourceTable (t : TableObj) (colName : String)
    (sourceAddr : Nat) (newColAlias : Option String) : M TableObj := do
  let cols := match t.columns with | some c => c | Option.none => []
  let src ← readObj sourceAddr
  let srcCols ← getMap src.columns
  match omGet srcCols colName with
  | some _ =>
    let colAlias := match newColAlias with | some a => a | Option.none => colName
    pure { t with columns := some (omSet cols colAlias (ColInfo.mk colName sourceAddr)) }
  | Option.none => pure { t with columns := some cols }

/-- Loop body of createAllColumnFromSourceTable: walks the source's
column entries, consuming the alias list positionally; the Go code passes
the iteration key (the source column's alias) as the origin column name. -/
def createAllColumnFromSourceTableAux (sourceAddr : Nat) :
    TableObj → Option (List String) → List (String × ColInfo) → M TableObj
  | t, _, [] => pure t
  | t, some (a :: rest), (colAlias, _) :: cols => do
    let t1 ← createColumnFromSourceTable t colAlias sourceAddr (some a)
    createAllColumnFromSourceTableAux sourceAddr t1 (some rest) cols
  | t, some [], (colAlias, _) :: cols => do
    let t1 ← createColumnFromSourceTable t colAlias sourceAddr Option.none
    createAllColumnFromSourceTableAux sourceAddr t1 (some []) cols
  | t, Option.none, (colAlias, _) :: cols => do
    let t1 ← createColumnFromSourceTable t colAlias sourceAddr Option.none
    createAllColumnFromSourceTableAux sourceAddr t1 Option.none cols

/-- createAllColumnFromSourceTable of table_info.go: a no-op when the
source's column map is nil. -/
def createAllColumnFromSourceTable (t : TableObj) (sourceAddr : Nat)
    (aliases : Option (List String)) : M TableObj := do
  let src ← readObj sourceAddr
  match src.columns with
  | Option.none => pure t
  | some cols => createAllColumnFromSourceTableAux sourceAddr t aliases cols

/-- createAllColumnsFromSourceTableList of table_info.go: walks the
source descriptors, slicing the alias list per source by its column
count; sources with a nil column map are skipped. -/
def createAllColumnsFromSourceTableList :
    TableObj → Option (List String) → List Nat → M TableObj
  | t, _, [] => pure t
  | t, aliases, a :: rest => do
    let src ← readObj a
    match src.columns with
    | Option.none => createAllColumnsFromSourceTableList t aliases rest
    | some cols =>
      match aliases with
      | some (x :: xs) => do
        let seg := (x :: xs).take cols.length
        let rem := (x :: xs).drop cols.length
        let t1 ← createAllColumnFromSourceTable t a (some seg)
        createAllColumnsFromSourceTableList t1 (some rem) rest
      | some [] => do
        let t1 ← createAllColumnFromSourceTable t a Option.none
        createAllColumnsFromSourceTableList t1 (some []) rest
      | Option.none => do
        let t1 ← createAllColumnFromSourceTable t a Option.none
        createAllColumnsFromSourceTableList t1 Option.none rest

/-- Column count of every table of the current scope (the allColCnt loop
of createVirtualTableForAlias); panics when a column map is nil. -/
def countAllCols : List (String × Nat) → M Nat
  | [] => pure 0
  | (_, a) :: rest => do
    let t ← readObj a
    let cols ← getMap t.columns
    let n ← countAllCols rest
    pure (cols.length + n)

/-- GetAStar on a node. -/
def isAStar (n : Node) : Bool :=
  match n with
  | .aStar => true
  | _ => false

/-- Target-list walk of createVirtualTableForAlias, threading the virtual
descriptor under construction and the positional alias cursor. -/
def virtTargetLoop (ct : Scope) (colAliases : Option (List String)) (allColCnt : Nat) :
    TableObj → Nat → List Node → M (TableObj × Nat)
  | vt, curIndex, [] => pure (vt, curIndex)
  | vt, curIndex, n :: rest => do
    match n with
    | .resTarget nameStr (some (.columnRef fields)) =>
      (match fields with
      | [] => virtTargetLoop ct colAliases allColCnt vt curIndex rest
      | f0 :: frest =>
        if isAStar f0 then do
          let len := (colAliases.getD []).length
          let nextIndex := min (curIndex + allColCnt) len
          let seg := ((colAliases.getD []).drop curIndex).take (nextIndex - curIndex)
          let vt1 ← createAllColumnsFromSourceTableList vt (some seg) (ct.map (fun e => e.2))
          virtTargetLoop ct colAliases allColCnt vt1 nextIndex rest
        else if fields.length = 2 && (frest.head?.map isAStar).getD false
            && (getStringField f0).isSome then do
          let selectedTableName := (getStringField f0).getD ""
          match omGet ct selectedTableName with
          | Option.none => virtTargetLoop ct colAliases allColCnt vt curIndex rest
          | some ta => do
            let selObj ← readObj ta
            let selCols ← getMap selObj.columns
            let len := (colAliases.getD []).length
            let nextIndex := min (curIndex + selCols.length) len
            let seg := ((colAliases.getD []).drop curIndex).take (nextIndex - curIndex)
            let vt1 ← createAllColumnFromSourceTable vt ta (some seg)
            virtTargetLoop ct colAliases allColCnt vt1 nextIndex rest
        else if (getStringField f0).isSome then do
          let selectedTableName := (getStringField f0).getD ""
          match frest.head? with
          | Option.none => M.crash "index out of range"
          | some f1 => do
            let selectedColName :=
              match getStringField f1 with | some s => s | Option.none => ""
            match omGet ct selectedTableName with
            | Option.none => virtTargetLoop ct colAliases allColCnt vt curIndex rest
            | some ta => do
              let base := if nameStr = "" then selectedColName else nameStr
              let useAlias :=
                match (colAliases.getD []).get? curIndex with
                | some s => if s = "" then Option.none else some s
                | Option.none => Option.none
              let colAlias := match useAlias with | some s => s | Option.none => base
              let nextIndex :=
                match useAlias with | some _ => curIndex + 1 | Option.none => curIndex
              let vt1 ← createColumnFromSourceTable vt selectedColName ta (some colAlias)
              virtTargetLoop ct colAliases allColCnt vt1 nextIndex rest
        else
          virtTargetLoop ct colAliases allColCnt vt curIndex rest)
    | _ => virtTargetLoop ct colAliases allColCnt vt curIndex rest

/-- Copy obligation entries into the virtual descriptor's obligation
map; the Go code never initializes that map, so the first Set panics. -/
def virtCopyEntries : TableObj → List (String × Nat) → M TableObj
  | vt, [] => pure vt
  | vt, (k, ua) :: es =>
    match vt.unauth with
    | Option.none => M.crash "nil ordered map dereference"
    | some cur => virtCopyEntries { vt with unauth := some (omSet cur k ua) } es

/-- Obligation propagation of createVirtualTableForAlias: every
obligation still carried by an inner descriptor is set into the virtual
table's obligation map. -/
def virtObligations : TableObj → List (String × Nat) → M TableObj
  | vt, [] => pure vt
  | vt, (_, a) :: rest => do
    let t ← readObj a
    let entries ← getMap t.unauth
    if entries.length ≠ 0 then do
      let vt1 ← virtCopyEntries vt entries
      virtObligations vt1 rest
    else
      virtObligations vt rest

/-- createVirtualTableForAlias of authorization.go: wraps the current
scope in one virtual descriptor named by the alias, exposing columns per
the target list (or all columns when it is absent) and inheriting the
inner scope's obligations. -/
def createVirtualTableForAlias (al : AliasNode) (targetList : Option (List Node))
    (curTables : Option Scope) : M Scope := do
  let vt0 : TableObj :=
    { name := al.aliasname, tblAlias := al.aliasname,
      columns := some [], hasStar := true, unauth := Option.none,
      authorized := false, isDatabase := false }
  let colAliases : Option (List String) :=
    match al.colnames with
    | Option.none => Option.none
    | some ns => some (ns.filterMap id)
  let ct ← getMap curTables
  let allColCnt ← countAllCols ct
  let vt1 ←
    match targetList with
    | some ts => do
      let r ← virtTargetLoop ct colAliases allColCnt vt0 0 ts
      pure r.1
    | Option.none => createAllColumnsFromSourceTableList vt0 colAliases (ct.map (fun e => e.2))
  let vt2 ← virtObligations vt1 ct
  let va ← allocObj vt2
  pure [(vt2.tblAlias, va)]

/-- authorizeRangeVar of authorization.go: allocates a database-table
descriptor whose columns are the schema's columns, each sourcing the
descriptor itself; the obligation map is left nil (the composite literal
never initializes UnAuthorizedTables, and no obligation entry is added
for a private table), and the verdict is just isPublicTable.  The
dispatch of AuthorizeNode has no RangeVar case, so this function is
never reached from it.  The composite literal in the source also writes
an Alias field that table_info.go's ColumnInfo does not declare; the
embedding keeps the two declared fields. -/
def authorizeRangeVar (gc : String → List String) (relname : String)
    (al : Option AliasNode) (tables : Option Scope) : M AuthResult := do
  let a ← allocObj
    { name := relname, tblAlias := relname, columns := some [],
      hasStar := false, unauth := Option.none, authorized := false, isDatabase := true }
  let cols := (gc relname).foldl (fun acc c => omSet acc c (ColInfo.mk c a)) []
  let tblAlias := match al with | some x => x.aliasname | Option.none => relname
  writeObj a
    { name := relname, tblAlias := tblAlias, columns := some cols,
      hasStar := false, unauth := Option.none, authorized := false, isDatabase := true }
  let merged ← MergeMaps tables (some [(tblAlias, a)])
  pure { authorized := isPublicTable relname, tables := merged, targetList := Option.none }

/-- GetIntoClause, nil-safe over a possibly-nil statement. -/
def osIntoClause : Option SelectStmt → Bool
  | some s => s.intoClause
  | Option.none => false

/-- GetWithClause().GetCtes(), nil-safe. -/
def osWithCtes : Option SelectStmt → Option (List Node)
  | some s => s.withCtes
  | Option.none => Option.none

/-- GetOp, nil-safe. -/
def osOp : Option SelectStmt → SetOp
  | some s => s.op
  | Option.none => SetOp.none

/-- GetLarg, nil-safe. -/
def osLarg : Option SelectStmt → Option SelectStmt
  | some s => s.larg
  | Option.none => Option.none

/-- GetRarg, nil-safe. -/
def osRarg : Option SelectStmt → Option SelectStmt
  | some s => s.rarg
  | Option.none => Option.none

/-- GetFromClause, nil-safe. -/
def osFromClause : Option SelectStmt → List Node
  | some s => s.fromClause
  | Option.none => []

/-- GetWhereClause, nil-safe. -/
def osWhere : Option SelectStmt → Option Node
  | some s => s.whereClause
  | Option.none => Option.none

/-- GetHavingClause, nil-safe. -/
def osHaving : Option SelectStmt → Option Node
  | some s => s.havingClause
  | Option.none => Option.none

/-- GetTargetList, nil-safe. -/
def osTargetList : Option SelectStmt → List Node
  | some s => s.targetList
  | Option.none => []

/-- Inner loop of the AEXPR_OP clearing pass of authorizeAExpr over one
descriptor's obligation entries: yields the iteration key of the first
obligation matched by the predicate (the caller deletes it and breaks),
or none.  The authorization column is looked up by the outer
descriptor's Name, as the source does; indexing an absent column-ref
field and reading the Ival of a non-integer constant are panics. -/
def aexprOpInner (fuel : Nat) (u : UserInfo) (tblName tblAliasStr : String)
    (fields : List Node) (ival : Option Int) :
    List (String × Nat) → M (Option String)
  | [] => pure Option.none
  | (ek, ua) :: rest => do
    let authColStr := getAuthorizationColumn tblName u
    match fields.head? with
    | Option.none => M.crash "index out of range"
    | some f0 =>
      if getStringValueFromNode (some f0) = tblAliasStr then
        match fields.get? 1 with
        | Option.none => M.crash "index out of range"
        | some f1 => do
          let al ← getAliasOfColumn fuel ua authColStr
          if getStringValueFromNode (some f1) = al then
            match ival with
            | Option.none => M.crash "nil pointer dereference"
            | some iv =>
              if iv = u.id then pure (some ek)
              else aexprOpInner fuel u tblName tblAliasStr fields ival rest
          else aexprOpInner fuel u tblName tblAliasStr fields ival rest
      else aexprOpInner fuel u tblName tblAliasStr fields ival rest

/-- Outer loop of the AEXPR_OP clearing pass over the deep-copied scope. -/
def aexprOpOuter (fuel : Nat) (u : UserInfo) (fields : List Node) (ival : Option Int) :
    List (String × Nat) → M Unit
  | [] => pure ()
  | (_, a) :: rest => do
    let t ← readObj a
    let entries ← getMap t.unauth
    let hit ← aexprOpInner fuel u t.name t.tblAlias fields ival entries
    (match hit with
     | some ek => writeObj a { t with unauth := some (omDelete entries ek) }
     | Option.none => pure ())
    aexprOpOuter fuel u fields ival rest

/-- Inner loop of the AEXPR_IN clearing pass: here the authorization
column is looked up by the obligation's Name, and the list element is
compared as a string against strconv.Itoa of the identity —
getStringValueFromNode returns the empty string for an A_Const, so the
comparison never succeeds for a parsed literal list. -/
def aexprInInner (fuel : Nat) (u : UserInfo) (tblAliasStr : String)
    (fields : List Node) (item0 : Node) :
    List (String × Nat) → M (Option String)
  | [] => pure Option.none
  | (ek, ua) :: rest => do
    let uObj ← readObj ua
    let authColStr := getAuthorizationColumn uObj.name u
    match fields.head? with
    | Option.none => M.crash "index out of range"
    | some f0 =>
      if getStringValueFromNode (some f0) = tblAliasStr then
        match fields.get? 1 with
        | Option.none => M.crash "index out of range"
        | some f1 => do
          let al ← getAliasOfColumn fuel ua authColStr
          if getStringValueFromNode (some f1) = al then
            if getStringValueFromNode (some item0) = toString u.id then pure (some ek)
            else aexprInInner fuel u tblAliasStr fields item0 rest
          else aexprInInner fuel u tblAliasStr fields item0 rest
      else aexprInInner fuel u tblAliasStr fields item0 rest

/-- Outer loop of the AEXPR_IN clearing pass. -/
def aexprInOuter (fuel : Nat) (u : UserInfo) (fields : List Node) (item0 : Node) :
    List (String × Nat) → M Unit
  | [] => pure ()
  | (_, a) :: rest => do
    let t ← readObj a
    let entries ← getMap t.unauth
    let hit ← aexprInInner fuel u t.tblAlias fields item0 entries
    (match hit with
     | some ek => writeObj a { t with unauth := some (omDelete entries ek) }
     | Option.none => pure ())
    aexprInOuter fuel u fields item0 rest

/-- Final pass of authorizeAExpr: authorized iff every descriptor's
obligation map (a panic when nil) is empty; the loop visits every
descriptor without breaking. -/
def allScopeAuthorized : List (String × Nat) → M Bool
  | [] => pure true
  | (_, a) :: rest => do
    let t ← readObj a
    let entries ← getMap t.unauth
    let b ← allScopeAuthorized rest
    pure (entries.length = 0 && b)

/-- Final pass of authorizeBoolExpr: whether some descriptor still has a
non-empty obligation map (a panic when nil); breaks at the first one. -/
def anyScopeUnauthorized : List (String × Nat) → M Bool
  | [] => pure false
  | (_, a) :: rest => do
    let t ← readObj a
    let entries ← getMap t.unauth
    if entries.length ≠ 0 then pure true else anyScopeUnauthorized rest

/-- JOIN_LEFT and JOIN_RIGHT handling of authorizeJoinExpr: replace every
descriptor's obligation map of one side with a fresh empty map. -/
def clearEachObligations : List (String × Nat) → M Unit
  | [] => pure ()
  | (_, a) :: rest => do
    let t ← readObj a
    writeObj a { t with unauth := some [] }
    clearEachObligations rest

/-- Iterate one side's scope clearing obligations (panics when the scope
map is nil). -/
def clearScopeObligations (tables : Option Scope) : M Unit := do
  let tl ← getMap tables
  clearEachObligations tl

/-- The Go pattern authResult, _ := s.AuthorizeNode(...): a returned
error is discarded, leaving a nil result whose field access then
panics. -/
def discardGoError (x : M AuthResult) : M AuthResult := fun h =>
  match x h with
  | .error (.goError _) => .error (.crash "nil pointer dereference")
  | r => r

mutual

/-- AuthorizeNode of authorization.go: dispatch over the node variants.
There is no case for RangeVar, so a plain table in a FROM clause falls
through, like every unlisted or empty-cased variant, to the default
result: not authorized, scope passed through unchanged. -/
def AuthorizeNode : Nat → Option Node → Option Scope → Bool → UserInfo → M AuthResult
  | 0, _, _, _, _ => M.crash "stack overflow"
  | fuel + 1, node, tables, neg, u =>
    match node with
    | Option.none => M.goErr "node is nil"
    | some n =>
      match n with
      | .selectStmt s => authorizeSelectStmt fuel (some s) tables neg u
      | .boolExpr op args => authorizeBoolExpr fuel (some (op, args)) tables neg u
      | .aExpr k nm l r => authorizeAExpr fuel k nm l r tables neg u
      | .subLink sub => authorizeSubLink fuel sub tables neg u
      | .joinExpr jt isNat larg rarg usingCl quals al =>
        authorizeJoinExpr fuel jt isNat larg rarg usingCl quals al tables neg u
      | .fromExpr fl q => authorizeFromExpr fuel fl q tables neg u
      | .rangeSubselect lat sub al => authorizeRangeSubselect fuel lat sub al tables neg u
      | .withClause ctes => authorizeWithClause fuel ctes tables neg u
      | _ => pure { authorized := false, tables := tables, targetList := Option.none }

/-- authorizeSelectStmt of authorization.go.  A SELECT with an INTO
clause returns the freshly initialized result — Authorized true over an
empty scope.  CTEs, then set operations, then FROM, then WHERE and
HAVING (each only while the statement is not yet authorized), then the
target list capture. -/
def authorizeSelectStmt : Nat → Option SelectStmt → Option Scope → Bool → UserInfo → M AuthResult
  | 0, _, _, _, _ => M.crash "stack overflow"
  | fuel + 1, stmt, tables, neg, u => do
    let result0 : AuthResult :=
      { authorized := true, tables := some [], targetList := Option.none }
    if osIntoClause stmt then pure result0
    else do
      let result1 ←
        match osWithCtes stmt with
        | Option.none => pure result0
        | some ctes => authorizeCtesLoop fuel ctes tables neg u result0
      match osOp stmt with
      | .union => do
        let lResult ← authorizeSelectStmt fuel (osLarg stmt) tables neg u
        let rResult ← authorizeSelectStmt fuel (osRarg stmt) tables neg u
        let merged ← MergeMaps lResult.tables rResult.tables
        UpdateUnauthorizedTablesByUnion result1.tables [merged]
        let tl :=
          match lResult.targetList, rResult.targetList with
          | some lt, some _ => some lt
          | _, _ => result1.targetList
        pure { authorized := lResult.authorized && rResult.authorized,
               tables := result1.tables, targetList := tl }
      | .intersect => do
        let lResult ← authorizeSelectStmt fuel (osLarg stmt) tables neg u
        let rResult ← authorizeSelectStmt fuel (osRarg stmt) tables neg u
        let merged ← MergeMaps lResult.tables rResult.tables
        UpdateUnauthorizedTablesByIntersection result1.tables [merged]
        let tl :=
          match lResult.targetList, rResult.targetList with
          | some lt, some _ => some lt
          | _, _ => result1.targetList
        pure { authorized := lResult.authorized || rResult.authorized,
               tables := result1.tables, targetList := tl }
      | .exceptOp => authorizeSelectStmt fuel (osLarg stmt) tables neg u
      | .none => do
        let result2 ← authorizeFromLoop fuel (osFromClause stmt) tables neg u result1
        let result3 ←
          if !result2.authorized && (osWhere stmt).isSome then do
            let whereResult ← AuthorizeNode fuel (osWhere stmt) result2.tables neg u
            pure { authorized := whereResult.authorized, tables := whereResult.tables,
                   targetList := result2.targetList }
          else pure result2
        let result4 ←
          if !result3.authorized && (osHaving stmt).isSome then do
            let havingResult ← AuthorizeNode fuel (osHaving stmt) result3.tables neg u
            pure { authorized := havingResult.authorized, tables := havingResult.tables,
                   targetList := result3.targetList }
          else pure result3
        let tl :=
          if !(osTargetList stmt).isEmpty then some (osTargetList stmt)
          else result4.targetList
        pure { authorized := result4.authorized, tables := result4.tables, targetList := tl }

/-- The CTE loop shared by authorizeSelectStmt's with-clause section and
authorizeWithClause: each CTE node (a CommonTableExpr, which the
dispatch sends to the default case) is authorized against the incoming
scope, the accumulated scope is merged into the CTE's result map, and
the verdicts are conjoined. -/
def authorizeCtesLoop : Nat → List Node → Option Scope → Bool → UserInfo → AuthResult → M AuthResult
  | 0, _, _, _, _, _ => M.crash "stack overflow"
  | _ + 1, [], _, _, _, acc => pure acc
  | fuel + 1, cte :: rest, tables, neg, u, acc => do
    let cteResult ← AuthorizeNode fuel (some cte) tables neg u
    let merged ← MergeMaps cteResult.tables acc.tables
    authorizeCtesLoop fuel rest tables neg u
      { authorized := acc.authorized && cteResult.authorized, tables := merged,
        targetList := acc.targetList }

/-- The FROM-clause loop of authorizeSelectStmt. -/
def authorizeFromLoop : Nat → List Node → Option Scope → Bool → UserInfo → AuthResult → M AuthResult
  | 0, _, _, _, _, _ => M.crash "stack overflow"
  | _ + 1, [], _, _, _, acc => pure acc
  | fuel + 1, item :: rest, tables, neg, u, acc => do
    let fromResult ← AuthorizeNode fuel (some item) tables neg u
    let merged ← MergeMaps acc.tables fromResult.tables
    authorizeFromLoop fuel rest tables neg u
      { authorized := acc.authorized && fromResult.authorized, tables := merged,
        targetList := acc.targetList }

/-- authorizeFromExpr of authorization.go: merge the scopes of all from
items (into a nil map, so any non-empty contribution panics) and
authorize the quals against the combination; absent quals yield the
node-is-nil error. -/
def authorizeFromExpr : Nat → List Node → Option Node → Option Scope → Bool → UserInfo → M AuthResult
  | 0, _, _, _, _, _ => M.crash "stack overflow"
  | fuel + 1, fromlist, quals, tables, neg, u => do
    let combined ← authorizeFromlistCollect fuel fromlist tables neg u Option.none
    AuthorizeNode fuel quals combined neg u

/-- Scope collection loop of authorizeFromExpr. -/
def authorizeFromlistCollect : Nat → List Node → Option Scope → Bool → UserInfo → Option Scope → M (Option Scope)
  | 0, _, _, _, _, _ => M.crash "stack overflow"
  | _ + 1, [], _, _, _, acc => pure acc
  | fuel + 1, item :: rest, tables, neg, u, acc => do
    let r ← AuthorizeNode fuel (some item) tables neg u
    let acc1 ← MergeMaps acc r.tables
    authorizeFromlistCollect fuel rest tables neg u acc1

/-- authorizeJoinExpr of authorization.go. -/
def authorizeJoinExpr : Nat → JoinType → Bool → Option Node → Option Node → Bool →
    Option Node → Option AliasNode → Option Scope → Bool → UserInfo → M AuthResult
  | 0, _, _, _, _, _, _, _, _, _, _ => M.crash "stack overflow"
  | fuel + 1, jt, isNat, larg, rarg, usingCl, quals, al, tables, neg, u =>
    match larg with
    | Option.none => M.goErr "left side of join is nil"
    | some ln =>
      match rarg with
      | Option.none => M.goErr "right side of join is nil"
      | some rn => do
        let lResult ← AuthorizeNode fuel (some ln) tables neg u
        let rResult ← AuthorizeNode fuel (some rn) tables neg u
        let cur1 ← MergeMaps Option.none lResult.tables
        let cur2 ← MergeMaps cur1 rResult.tables
        if lResult.authorized && rResult.authorized then do
          let curT ←
            match al with
            | some a => do
              let sc ← createVirtualTableForAlias a Option.none cur2
              pure (some sc)
            | Option.none => pure cur2
          pure { authorized := true, tables := curT, targetList := Option.none }
        else if usingCl || isNat then do
          let curT ←
            match al with
            | some a => do
              let sc ← createVirtualTableForAlias a Option.none cur2
              pure (some sc)
            | Option.none => pure cur2
          if u.role = "admin" then
            pure { authorized := true, tables := curT, targetList := Option.none }
          else
            pure { authorized := false, tables := curT, targetList := Option.none }
        else do
          (match jt with
           | .inner => UpdateUnauthorizedTablesByIntersection lResult.tables [rResult.tables]
           | .uniqueInner => UpdateUnauthorizedTablesByIntersection lResult.tables [rResult.tables]
           | .left => clearScopeObligations rResult.tables
           | .right => clearScopeObligations lResult.tables
           | .full => pure ()
           | .uniqueOuter => pure ()
           | .otherJoin => M.goErr "unsupported join type")
          let qualResult ← AuthorizeNode fuel quals cur2 neg u
          match al with
          | some a => do
            let sc ← createVirtualTableForAlias a Option.none qualResult.tables
            pure { authorized := qualResult.authorized, tables := some sc,
                   targetList := qualResult.targetList }
          | Option.none => pure qualResult

/-- authorizeSubLink of authorization.go: the subselect is authorized
against the current scope with the negation flag reset. -/
def authorizeSubLink : Nat → Option Node → Option Scope → Bool → UserInfo → M AuthResult
  | 0, _, _, _, _ => M.crash "stack overflow"
  | fuel + 1, sub, tables, _, u => AuthorizeNode fuel sub tables false u

/-- authorizeRangeSubselect of authorization.go: LATERAL is refused with
an error; otherwise the subquery is authorized (negation reset) and an
alias wraps the result in a virtual descriptor, clearing the target
list. -/
def authorizeRangeSubselect : Nat → Bool → Option Node → Option AliasNode → Option Scope → Bool → UserInfo → M AuthResult
  | 0, _, _, _, _, _, _ => M.crash "stack overflow"
  | fuel + 1, lateral, subquery, al, tables, _, u =>
    if lateral then M.goErr "lateral is not supported"
    else do
      let authResult ← AuthorizeNode fuel subquery tables false u
      match al with
      | some a => do
        let sc ← createVirtualTableForAlias a authResult.targetList authResult.tables
        pure { authorized := authResult.authorized, tables := some sc,
               targetList := Option.none }
      | Option.none => pure authResult

/-- authorizeWithClause of authorization.go. -/
def authorizeWithClause : Nat → List Node → Option Scope → Bool → UserInfo → M AuthResult
  | 0, _, _, _, _ => M.crash "stack overflow"
  | fuel + 1, ctes, tables, neg, u =>
    authorizeCtesLoop fuel ctes tables neg u
      { authorized := true, tables := some [], targetList := Option.none }

/-- authorizeBoolExpr of authorization.go: a nil BoolExpr reports
authorized iff the scope map is empty; otherwise the scope is deep
copied, OR combines branch obligations by UpdateUnauthorizedTablesByUnion,
AND by UpdateUnauthorizedTablesByIntersection, NOT inverts its single
argument's verdict, and the final loop rechecks every descriptor's
obligation map. -/
def authorizeBoolExpr : Nat → Option (BoolOp × List Node) → Option Scope → Bool → UserInfo → M AuthResult
  | 0, _, _, _, _ => M.crash "stack overflow"
  | fuel + 1, b, tables, neg, u =>
    match b with
    | Option.none => do
      let tl ← getMap tables
      pure { authorized := tl.length = 0, tables := tables, targetList := Option.none }
    | some (op, args) => do
      let copied ← DeepCopy fuel tables
      let flag ←
        match op with
        | .orExpr => do
          let branches ← authorizeBoolArgsCollect fuel args tables neg u
          UpdateUnauthorizedTablesByUnion copied branches
          pure true
        | .andExpr => do
          let branches ← authorizeBoolArgsCollect fuel args tables neg u
          UpdateUnauthorizedTablesByIntersection copied branches
          pure true
        | .notExpr =>
          match args with
          | [a] => do
            let r ← AuthorizeNode fuel (some a) tables (!neg) u
            pure (!r.authorized)
          | _ => M.goErr "NOT expression must have exactly one argument"
        | .otherBool => pure true
      let cl ← getMap copied
      let anyBad ← anyScopeUnauthorized cl
      pure { authorized := flag && !anyBad, tables := copied, targetList := Option.none }

/-- Branch collection loop of authorizeBoolExpr: every argument is
authorized against the same incoming scope (not the copy), and the
resulting scope maps are gathered in order. -/
def authorizeBoolArgsCollect : Nat → List Node → Option Scope → Bool → UserInfo → M (List (Option Scope))
  | 0, _, _, _, _ => M.crash "stack overflow"
  | _ + 1, [], _, _, _ => pure []
  | fuel + 1, a :: rest, tables, neg, u => do
    let r ← AuthorizeNode fuel (some a) tables neg u
    let others ← authorizeBoolArgsCollect fuel rest tables neg u
    pure (r.tables :: others)

/-- authorizeAExpr of authorization.go: deep-copies the scope, requires
both operands and the wanted operator (equality, or inequality under
negation), then runs the AEXPR_OP clearing pass (plain comparison and the
row-expression-equality form, the latter deleting from the original
scope's descriptors) or the AEXPR_IN pass, and reports authorized iff
every copied descriptor's obligation map is empty. -/
def authorizeAExpr : Nat → AExprKind → List Node → Option Node → Option Node → Option Scope → Bool → UserInfo → M AuthResult
  | 0, _, _, _, _, _, _, _ => M.crash "stack overflow"
  | fuel + 1, kind, nameL, lexpr, rexpr, tables, neg, u => do
    let resultTables ← DeepCopy fuel tables
    if lexpr.isNone || rexpr.isNone then
      pure { authorized := false, tables := resultTables, targetList := Option.none }
    else do
      let wantOperator := if neg then "<>" else "="
      match nameL.head? with
      | Option.none => M.crash "index out of range"
      | some n0 =>
        if getStringValueFromNode (some n0) ≠ wantOperator then
          pure { authorized := false, tables := resultTables, targetList := Option.none }
        else do
          (match kind with
           | .op => do
             (match extractColumnRefAndConst lexpr rexpr with
              | (some fields, some ival) => do
                let rt ← getMap resultTables
                aexprOpOuter fuel u fields ival rt
              | _ => pure ())
             (match lexpr with
              | some (.rowExpr args) => aexprRowLoop fuel rexpr tables neg u args
              | _ => pure ())
           | .inList =>
             (match getColumnRef lexpr, rexpr with
              | some fields, some (.listNode items) =>
                if items.length ≠ 1 then pure ()
                else
                  match items.head? with
                  | some item0 => do
                    let rt ← getMap resultTables
                    aexprInOuter fuel u fields item0 rt
                  | Option.none => pure ()
              | _, _ => pure ())
           | .otherKind => pure ())
          let rt2 ← getMap resultTables
          let ok ← allScopeAuthorized rt2
          pure { authorized := ok, tables := resultTables, targetList := Option.none }

/-- RowExpr-equals-SubLink loop of authorizeAExpr: for the first row
component that is a qualified column reference naming a scope table
whose authorization column matches, the right operand is authorized
against the singleton scope of that table (a returned error is discarded,
so the subsequent field access of the nil result panics), and on success
the obligation keyed by the table's alias is deleted from the original
descriptor — not from the deep copy. -/
def aexprRowLoop : Nat → Option Node → Option Scope → Bool → UserInfo → List Node → M Unit
  | 0, _, _, _, _, _ => M.crash "stack overflow"
  | _ + 1, _, _, _, _, [] => pure ()
  | fuel + 1, rexpr, tables, neg, u, arg :: rest =>
    match arg with
    | .columnRef fields =>
      if fields.length ≤ 1 then aexprRowLoop fuel rexpr tables neg u rest
      else
        match fields.head?, fields.get? 1 with
        | some f0, some f1 =>
          (match getStringField f0, getStringField f1 with
           | some s0, some s1 => do
             let tl ← getMap tables
             match omGet tl s0 with
             | Option.none => aexprRowLoop fuel rexpr tables neg u rest
             | some ta => do
               let tObj ← readObj ta
               let alc ← getAliasOfColumn fuel ta s1
               if getAuthorizationColumn tObj.name u ≠ alc then
                 aexprRowLoop fuel rexpr tables neg u rest
               else do
                 let r ← discardGoError (AuthorizeNode fuel rexpr (some [(tObj.tblAlias, ta)]) neg u)
                 if r.authorized then do
                   let tObj2 ← readObj ta
                   let entries ← getMap tObj2.unauth
                   writeObj ta { tObj2 with unauth := some (omDelete entries tObj2.tblAlias) }
                 else aexprRowLoop fuel rexpr tables neg u rest
           | _, _ => aexprRowLoop fuel rexpr tables neg u rest)
        | _, _ => aexprRowLoop fuel rexpr tables neg u rest
    | _ => aexprRowLoop fuel rexpr tables neg u rest

end

/-- TableInfo of db.go (the fields extractTables writes). -/
structure GoTableInfo where
  name : String
  tiAlias : String
deriving Repr, DecidableEq

/-- GetSelectStmt on a statement node. -/
def getSelectStmtNode (n : Node) : Option SelectStmt :=
  match n with
  | .selectStmt s => some s
  | _ => Option.none

mutual

/-- extractTables of db.go: collects the table names of the FROM clause,
including both plain sides of a join, recursing into subqueries and
adding a derived_table entry for an aliased subquery.  No branch ever
constructs a Go error. -/
def extractTables : Nat → SelectStmt → Except Fault (List GoTableInfo)
  | 0, _ => .error (.crash "stack overflow")
  | fuel + 1, s => extractFromItems fuel s.fromClause

/-- FROM-item loop of extractTables. -/
def extractFromItems : Nat → List Node → Except Fault (List GoTableInfo)
  | 0, _ => .error (.crash "stack overflow")
  | _ + 1, [] => .ok []
  | fuel + 1, item :: rest => do
    let cur ← extractFromItem fuel item
    let others ← extractFromItems fuel rest
    pure (cur ++ others)

/-- Contribution of one FROM item to extractTables: a RangeVar yields its
table, a JoinExpr its two plain sides, an aliased subquery its inner
tables plus a derived_table entry, anything else nothing. -/
def extractFromItem : Nat → Node → Except Fault (List GoTableInfo)
  | 0, _ => .error (.crash "stack overflow")
  | fuel + 1, item =>
    match item with
    | .rangeVar rel al =>
      .ok [GoTableInfo.mk rel ((al.map (fun x => x.aliasname)).getD "")]
    | .joinExpr _ _ larg rarg _ _ _ =>
      let l :=
        match larg with
        | some (.rangeVar rel al) =>
          [GoTableInfo.mk rel ((al.map (fun x => x.aliasname)).getD "")]
        | _ => []
      let r :=
        match rarg with
        | some (.rangeVar rel al) =>
          [GoTableInfo.mk rel ((al.map (fun x => x.aliasname)).getD "")]
        | _ => []
      .ok (l ++ r)
    | .rangeSubselect _ sub al =>
      (match sub with
       | some (.selectStmt inner) => do
         let subTables ← extractTables fuel inner
         let extra :=
           match al with
           | some a => [GoTableInfo.mk "derived_table" a.aliasname]
           | Option.none => []
         pure (subTables ++ extra)
       | _ => .ok [])
    | _ => .ok []

end

/-- validateQuery of db.go, over the outcome of the external parser (a
list of parsed statements, or a parse failure).  Parse failure, an empty
statement list and a non-SELECT first statement are rejected with their
messages; then the tables are extracted, and the role switch authorizes
admin unconditionally and — the per-table access rules being left
unwritten — student and professor as well; only an unknown role is
rejected.  Statements after the first are ignored. -/
def validateQuery (fuel : Nat) (parseResult : Except String (List Node))
    (userRole : String) : Except Fault (Bool × String) :=
  match parseResult with
  | .error _ => .ok (false, "Failed to parse SQL query")
  | .ok stmts =>
    match stmts with
    | [] => .ok (false, "Empty query")
    | s0 :: _ =>
      match getSelectStmtNode s0 with
      | Option.none => .ok (false, "Only SELECT queries are allowed")
      | some sel =>
        match extractTables fuel sel with
        | .error f =>
          match f with
          | .goError _ => .ok (false, "Failed to extract tables from query")
          | .crash m => .error (.crash m)
        | .ok _tables =>
          if userRole = "admin" then .ok (true, "")
          else if userRole = "student" then .ok (true, "")
          else if userRole = "professor" then .ok (true, "")
          else .ok (false, "Unknown role: " ++ userRole)

/-- Whether a parse outcome is a successful parse whose first statement
is a SELECT — the only cases validateQuery does not reject outright. -/
def isSelectParse (parseResult : Except String (List Node)) : Bool :=
  match parseResult with
  | .ok (s0 :: _) => (getSelectStmtNode s0).isSome
  | _ => false

/-- Column reference node table.column, as the parser produces it. -/
def mkColRef (t c : String) : Node := .columnRef [.strNode t, .strNode c]

/-- Equality predicate table.column = k over an integer literal. -/
def mkEqConst (t c : String) (k : Int) : Node :=
  .aExpr .op [.strNode "="] (some (mkColRef t c)) (some (.aConst (some k)))

/-- Parse tree of SELECT * FROM tbl [WHERE w]. -/
def mkSimpleSelect (tbl : String) (whereC : Option Node) : SelectStmt :=
  .mk Option.none false .none Option.none Option.none
    [.rangeVar tbl Option.none] whereC Option.none
    [.resTarget "" (some (.columnRef [.aStar]))]

/-- Parse tree of L EXCEPT R: a set-operation SELECT node carrying only
the operation and its two sides. -/
def mkExceptStmt (L R : SelectStmt) : SelectStmt :=
  .mk Option.none false .exceptOp (some L) (some R) [] Option.none Option.none []

/-- The empty SELECT statement (no clauses at all). -/
def emptySelect : SelectStmt :=
  .mk Option.none false .none Option.none Option.none [] Option.none Option.none []

/-- The student caller with identity 1 used by the concrete runs. -/
def studentUser : UserInfo := { id := 1, role := "student" }

/-- A database-table descriptor exactly as the repository's tests build
them: mock-schema columns, each sourcing the descriptor itself at its
own address, with the given obligation map. -/
def dbObjAt (nm al : String) (selfAddr : Nat)
    (unauthEntries : Option (List (String × Nat))) : TableObj :=
  { name := nm, tblAlias := al,
    columns := some ((mockGetColumns nm).map (fun c => (c, ColInfo.mk c selfAddr))),
    hasStar := false, unauth := unauthEntries, authorized := false, isDatabase := true }

/-- Two-descriptor heap for predicate-level runs: address 0 is a student
table with an empty obligation map (the obligation target), address 1 a
student table whose single obligation, keyed "student", is address 0. -/
def heapStudent : Heap :=
  [dbObjAt "student" "student" 0 (some []),
   dbObjAt "student" "student" 1 (some [("student", 0)])]

/-- The scope exposing the obligated student descriptor. -/
def scopeStudent : Scope := [("student", 1)]

/-- Heap for the row-expression run: the obligated descriptor is aliased
s and carries its obligation under key s. -/
def heapRowExpr : Heap :=
  [dbObjAt "student" "s" 0 (some []),
   dbObjAt "student" "s" 1 (some [("s", 0)])]

/-- Verdict projection of a run. -/
def runVerdict (x : Except Fault (AuthResult × Heap)) : Option Bool :=
  match x with
  | .ok p => some p.1.authorized
  | .error _ => Option.none

/-- Fault projection of a run. -/
def runFault (x : Except Fault (AuthResult × Heap)) : Option Fault :=
  match x with
  | .error e => some e
  | .ok _ => Option.none

/-- Obligation-map keys of the descriptor at an address: none when the
address is invalid or the obligation map is nil. -/
def oblKeysAt (h : Heap) (a : Nat) : Option (List String) :=
  match h.get? a with
  | some t =>
    match t.unauth with
    | some l => some (l.map (fun e => e.1))
    | Option.none => Option.none
  | Option.none => Option.none

/-- Scope view of a run: per scope key, the obligation-map keys of its
descriptor in the final heap. -/
def runScopeView (x : Except Fault (AuthResult × Heap)) :
    Option (List (String × Option (List String))) :=
  match x with
  | .ok (res, h) =>
    match res.tables with
    | some s => some (s.map (fun e => (e.1, oblKeysAt h e.2)))
    | Option.none => Option.none
  | .error _ => Option.none

/-- Alias field of the descriptor at an address (empty for an invalid
address). -/
def objAlias (h : Heap) (a : Nat) : String :=
  match h.get? a with
  | some t => t.tblAlias
  | Option.none => ""

/-- Aliases of the obligations recorded by the descriptor at an address,
read through the obligation descriptors' Alias fields — the quantity the
union and intersection combinators compare. -/
def oblValueAliases (h : Heap) (a : Nat) : List String :=
  match h.get? a with
  | some t =>
    match t.unauth with
    | some l => l.map (fun e => objAlias h e.2)
    | Option.none => []
  | Option.none => []

/-- Obligation aliases a branch scope still records for a destination
alias: those of every branch descriptor whose Alias field matches. -/
def branchOblAliases (h : Heap) (b : Option Scope) (tAlias : String) : List String :=
  match b with
  | Option.none => []
  | some bl =>
    bl.foldl (fun acc e =>
      if objAlias h e.2 = tAlias then acc ++ oblValueAliases h e.2 else acc) []

/-- Destination-scope well-formedness for the combinator theorems: every
entry resolves to a descriptor whose Alias field is its key, with an
initialized obligation map whose entries in turn resolve to descriptors
keyed by their own Alias fields, without duplicate obligation keys; the
scope's addresses are pairwise distinct. -/
def dstWF (h : Heap) (s : Scope) : Prop :=
  (s.map (fun e => e.2)).Nodup ∧
  ∀ e ∈ s, ∃ t, h.get? e.2 = some t ∧ t.tblAlias = e.1 ∧
    ∃ entries, t.unauth = some entries ∧
      ((entries.map (fun x => x.1)).Nodup ∧
       ∀ en ∈ entries, ∃ ut, h.get? en.2 = some ut ∧ ut.tblAlias = en.1)

/-- Branch-scope well-formedness: the branch map is non-nil, every
descriptor exists with an Alias field among the destination aliases and
an initialized obligation map whose entries resolve to existing
descriptors. -/
def branchWF (h : Heap) (dstAliases : List String) (b : Option Scope) : Prop :=
  ∃ bl, b = some bl ∧ ∀ e ∈ bl, ∃ t, h.get? e.2 = some t ∧
    t.tblAlias ∈ dstAliases ∧
    ∃ entries, t.unauth = some entries ∧
      ∀ en ∈ entries, (h.get? en.2).isSome = true

/-- Parse tree of a SELECT carrying an INTO clause over the student
table. -/
def mkIntoSelect : SelectStmt :=
  .mk Option.none true .none Option.none Option.none
    [.rangeVar "student" Option.none] Option.none Option.none []

/-- Row-expression-equality predicate (s.id, s.name) = (SELECT),
with a trivially authorized subselect. -/
def rowPred : Node :=
  .aExpr .op [.strNode "="]
    (some (.rowExpr [mkColRef "s" "id", mkColRef "s" "name"]))
    (some (.subLink (some (.selectStmt emptySelect))))

/-- Obligation-map keys of an address in a run's final heap. -/
def runOblKeysAt (x : Except Fault (AuthResult × Heap)) (a : Nat) :
    Option (Option (List String)) :=
  match x with
  | .ok (_, h) => some (oblKeysAt h a)
  | .error _ => Option.none

/-- Composition of C10: the scope born from authorizeRangeVar on the
private student table, fed to the Boolean combinator that a WHERE clause
dispatches to. -/
def rangeVarThenWhere (pred : Node) : Except Fault (AuthResult × Heap) :=
  ((do
    let r ← authorizeRangeVar mockGetColumns "student" Option.none (some [])
    authorizeBoolExpr 40 (some (.andExpr, [pred])) r.tables false studentUser) : M AuthResult) []

/-- Parse outcome used as the C3 witness: one SELECT statement. -/
def prOneSelect : Except String (List Node) := .ok [Node.selectStmt emptySelect]

/-- OR arguments of the concrete union-combinator run: one branch the
student's own identity clears, one it does not. -/
def c4args : List Node := [mkEqConst "student" "id" 1, mkEqConst "student" "id" 2]

/-- Deep-copied destination scope of that run. -/
def c4copied : Scope := [("student", 2)]

/-- Heap after the deep copy of the incoming scope. -/
def c4h1 : Heap :=
  match DeepCopy 39 (some scopeStudent) heapStudent with
  | .ok (_, h) => h
  | .error _ => []

/-- Branch scopes the argument collection returns: the first branch
cleared its obligation, the second kept it. -/
def c4bs : List (Option Scope) := [some [("student", 4)], some [("student", 6)]]

/-- Heap after authorizing both branches against the same incoming
scope. -/
def c4h2 : Heap :=
  match authorizeBoolArgsCollect 39 c4args (some scopeStudent) false studentUser c4h1 with
  | .ok (_, h) => h
  | .error _ => []

/-- C1.  The claim states that for a non-admin user whose role maps the
private table t to authorization column c, SELECT * FROM t WHERE c = k is
Authorized when k equals the identity and Rejected with t unresolved when
it differs.  On the code the second half fails: AuthorizeNode has no
RangeVar dispatch case, so the FROM table never enters the scope and the
WHERE clause is evaluated over an empty scope, which is vacuously
authorized — for the student with identity 1, both k = 1 and k = 2 yield
Authorized, with no unresolved tables recorded. -/
theorem C1_private_table_where_always_authorized :
    runVerdict ((authorizeSelectStmt 30
        (some (mkSimpleSelect "student" (some (mkEqConst "student" "id" 1))))
        (some []) false studentUser) []) = some true ∧
    runVerdict ((authorizeSelectStmt 30
        (some (mkSimpleSelect "student" (some (mkEqConst "student" "id" 2))))
        (some []) false studentUser) []) = some true ∧
    runScopeView ((authorizeSelectStmt 30
        (some (mkSimpleSelect "student" (some (mkEqConst "student" "id" 2))))
        (some []) false studentUser) []) = some [] :=
  ⟨rfl, rfl, rfl⟩

/-- C2.  The claim states that isPublicTable accepts exactly the eight
tables program, semester, course, course_program, course_class,
course_class_schedule, course_schedule_instructor, faculty.  The code's
isPublicTable accepts only six: semester and course_schedule_instructor
are missing, although getAuthorizationColumn's own public-table switch
treats both as public (returning the empty authorization column) — the
two public lists inside the package contradict each other. -/
theorem C2_isPublicTable_misses_two_public_tables :
    isPublicTable "semester" = false ∧
    isPublicTable "course_schedule_instructor" = false ∧
    getAuthorizationColumn "semester" studentUser = "" ∧
    getAuthorizationColumn "course_schedule_instructor" studentUser = "" ∧
    isPublicTable "faculty" = true ∧ isPublicTable "program" = true ∧
    isPublicTable "course" = true ∧ isPublicTable "course_program" = true ∧
    isPublicTable "course_class" = true ∧ isPublicTable "course_class_schedule" = true := by
  decide

/-- C5.  The claim states that AND combines obligations by intersection,
clearing an obligation whenever at least one branch cleared it.  On the
code the combinator deletes an obligation only when some branch still
RECORDS it as unauthorized: for the student with identity 1, the single
predicate student.id = 1 alone clears the student obligation, yet
AND(student.id = 1, student.id = 1) — both branches clearing it — leaves
the obligation in place and reports the expression unauthorized. -/
theorem C5_and_drops_obligation_cleared_by_both_branches :
    runVerdict ((AuthorizeNode 40 (some (mkEqConst "student" "id" 1))
        (some scopeStudent) false studentUser) heapStudent) = some true ∧
    runScopeView ((AuthorizeNode 40 (some (mkEqConst "student" "id" 1))
        (some scopeStudent) false studentUser) heapStudent)
      = some [("student", some [])] ∧
    runVerdict ((authorizeBoolExpr 40
        (some (.andExpr, [mkEqConst "student" "id" 1, mkEqConst "student" "id" 1]))
        (some scopeStudent) false studentUser) heapStudent) = some false ∧
    runScopeView ((authorizeBoolExpr 40
        (some (.andExpr, [mkEqConst "student" "id" 1, mkEqConst "student" "id" 1]))
        (some scopeStudent) false studentUser) heapStudent)
      = some [("student", some ["student"])] :=
  ⟨rfl, rfl, rfl, rfl⟩

/-- C6.  Authorizing L EXCEPT R equals authorizing L alone, for every
pair of SELECT statements, every scope, polarity and user: the EXCEPT
branch of authorizeSelectStmt returns the recursive call on the left
side unchanged (the successor fuel accounts for the one extra recursion
step of that branch). -/
theorem C6_except_ignores_right_side (fuel : Nat) (L R : SelectStmt)
    (tables : Option Scope) (neg : Bool) (u : UserInfo) :
    authorizeSelectStmt (fuel + 1) (some (mkExceptStmt L R)) tables neg u
      = authorizeSelectStmt fuel (some L) tables neg u :=
  rfl

/-- C7.  The claim states that a SELECT with an INTO clause is refused
and never Authorized.  On the code the INTO check returns the freshly
initialized result — Authorized true over an empty scope — without
error: the statement is reported authorized. -/
theorem C7_into_clause_returns_authorized :
    (authorizeSelectStmt 30 (some mkIntoSelect) (some []) false studentUser) []
      = .ok ({ authorized := true, tables := some [], targetList := Option.none }, []) :=
  rfl

/-- C8.  The claim states that a RangeVar descriptor is born with an
empty obligation set when public and with exactly one obligation (itself,
keyed by its alias) when private.  On the code authorizeRangeVar never
initializes UnAuthorizedTables: both the private student descriptor and
the public course descriptor are born with a nil obligation map (view
none), and no self entry is ever added. -/
theorem C8_rangevar_descriptor_has_nil_obligations :
    runVerdict ((authorizeRangeVar mockGetColumns "student" Option.none (some [])) [])
      = some false ∧
    runScopeView ((authorizeRangeVar mockGetColumns "student" Option.none (some [])) [])
      = some [("student", Option.none)] ∧
    runVerdict ((authorizeRangeVar mockGetColumns "course" Option.none (some [])) [])
      = some true ∧
    runScopeView ((authorizeRangeVar mockGetColumns "course" Option.none (some [])) [])
      = some [("course", Option.none)] :=
  ⟨rfl, rfl, rfl, rfl⟩

/-- C9.  The claim states that authorizing a predicate never mutates the
scope map passed in.  On the code the row-expression-equality branch of
authorizeAExpr deletes the obligation from the descriptor of the
original scope (not of the deep copy): before the run the descriptor at
address 1 of heapRowExpr carries the obligation keyed s; after
authorizing (s.id, s.name) = (SELECT ...) that original descriptor's
obligation map is empty. -/
theorem C9_rowexpr_branch_mutates_original_scope :
    oblKeysAt heapRowExpr 1 = some ["s"] ∧
    runOblKeysAt ((AuthorizeNode 40 (some rowPred) (some [("s", 1)]) false studentUser)
        heapRowExpr) 1 = some (some []) :=
  ⟨rfl, rfl⟩

/-- C10.  The claim states that the walk over descriptors created by
authorizeRangeVar never dereferences a nil obligations map.  On the
code, feeding the scope born from authorizeRangeVar on the private
student table into the Boolean combinator panics: the descriptor's
obligation map is nil and the clearing loop of authorizeAExpr
dereferences it. -/
theorem C10_rangevar_scope_panics_in_where_walk :
    runFault (rangeVarThenWhere (mkEqConst "student" "id" 1))
      = some (.crash "nil ordered map dereference") :=
  rfl

/-- Totality of extractTables: with fuel above the statement's size, the
extraction functions succeed (no branch constructs a Go error). -/
theorem extract_exists (fuel : Nat) :
    (∀ s : SelectStmt, sizeOf s < fuel → ∃ v, extractTables fuel s = .ok v) ∧
    (∀ items : List Node, sizeOf items < fuel → ∃ v, extractFromItems fuel items = .ok v) ∧
    (∀ item : Node, sizeOf item < fuel → ∃ v, extractFromItem fuel item = .ok v) := by
  induction fuel with
  | zero =>
    refine ⟨fun s h => absurd h (by omega), fun l h => absurd h (by omega),
      fun n h => absurd h (by omega)⟩
  | succ f ih =>
    refine ⟨?_, ?_, ?_⟩
    · intro s hs
      match s with
      | .mk w i o l r fc wc hc tl =>
        have hsize : sizeOf fc < f := by
          simp only [SelectStmt.mk.sizeOf_spec] at hs
          omega
        obtain ⟨v, hv⟩ := ih.2.1 fc hsize
        exact ⟨v, by simpa [extractTables] using hv⟩
    · intro items hitems
      match items with
      | [] => exact ⟨[], rfl⟩
      | item :: rest =>
        have hrest : sizeOf rest < f := by
          simp only [List.cons.sizeOf_spec] at hitems
          omega
        have hitem : sizeOf item < f := by
          simp only [List.cons.sizeOf_spec] at hitems
          omega
        obtain ⟨vr, hvr⟩ := ih.2.1 rest hrest
        obtain ⟨vc, hvc⟩ := ih.2.2 item hitem
        refine ⟨vc ++ vr, ?_⟩
        simp only [extractFromItems]
        rw [hvc, hvr]
        rfl
    · intro item hitem
      cases item
      case rangeSubselect lat sub al =>
        cases sub
        case none => exact ⟨_, rfl⟩
        case some n =>
          cases n
          case selectStmt inner =>
            have hinner : sizeOf inner < f := by
              simp only [Node.rangeSubselect.sizeOf_spec, Option.some.sizeOf_spec,
                Node.selectStmt.sizeOf_spec] at hitem
              omega
            obtain ⟨vi, hvi⟩ := ih.1 inner hinner
            cases al
            case none =>
              refine ⟨vi ++ [], ?_⟩
              simp only [extractFromItem]
              rw [hvi]
              rfl
            case some a =>
              refine ⟨vi ++ [GoTableInfo.mk "derived_table" a.aliasname], ?_⟩
              simp only [extractFromItem]
              rw [hvi]
              rfl
          all_goals exact ⟨_, rfl⟩
      all_goals exact ⟨_, rfl⟩

/-- C3.  For a caller with role admin, validateQuery authorizes exactly
when the text parses and its first statement is a SELECT: parse failure,
an empty statement list and a non-SELECT first statement are the only
rejections (the fuel bound makes the size-bounded table extraction,
which never fails on its own, explicit). -/
theorem C3_admin_authorized_iff_select_parses (fuel : Nat)
    (pr : Except String (List Node))
    (hfuel : ∀ s0 rest sel, pr = .ok (s0 :: rest) →
      getSelectStmtNode s0 = some sel → sizeOf sel < fuel) :
    (validateQuery fuel pr "admin" = .ok (true, "")) ↔ isSelectParse pr = true := by
  match pr with
  | .error e => simp [validateQuery, isSelectParse]
  | .ok [] => simp [validateQuery, isSelectParse]
  | .ok (s0 :: rest) =>
    match h0 : getSelectStmtNode s0 with
    | Option.none => simp [validateQuery, isSelectParse, h0]
    | some sel =>
      have hsz := hfuel s0 rest sel rfl h0
      obtain ⟨v, hv⟩ := (extract_exists fuel).1 sel hsz
      simp [validateQuery, isSelectParse, h0, hv]

/-- Witness for C3: one parsed SELECT statement, authorized for admin. -/
theorem C3_admin_authorized_iff_select_parses_witness :
    (validateQuery 100 prOneSelect "admin" = .ok (true, "")) ∧
    isSelectParse prOneSelect = true := by
  constructor
  · refine (C3_admin_authorized_iff_select_parses 100 prOneSelect ?_).mpr rfl
    intro s0 rest sel h1 h2
    simp only [prOneSelect, Except.ok.injEq, List.cons.injEq] at h1
    obtain ⟨h1a, h1b⟩ := h1
    subst h1a
    simp only [getSelectStmtNode, Option.some.injEq] at h2
    subst h2
    decide
  · rfl

/-- Lookup after Set: the set key reads the new value, others are
unchanged. -/
theorem omGet_omSet {β : Type} (m : List (String × β)) (k x : String) (v : β) :
    omGet (omSet m k v) x = if x = k then some v else omGet m x := by
  induction m with
  | nil =>
    by_cases hx : x = k
    · subst hx
      simp [omSet, omGet]
    · have h1 : ¬ k = x := fun h => hx h.symm
      simp [omSet, omGet, hx, h1]
  | cons e rest ih =>
    by_cases hek : e.1 = k
    · subst hek
      by_cases hx : x = e.1
      · subst hx
        simp [omSet, omGet]
      · have h1 : ¬ e.1 = x := fun h => hx h.symm
        simp [omSet, omGet, hx, h1]
    · by_cases hx : x = e.1
      · subst hx
        simp [omSet, omGet, hek]
      · have h1 : ¬ e.1 = x := fun h => hx h.symm
        simp only [omSet, if_neg hek, omGet, if_neg h1]
        exact ih

/-- Membership in the inner-set insertion. -/
theorem mem_innerInsert (l : List String) (x y : String) :
    y ∈ innerInsert l x ↔ y ∈ l ∨ y = x := by
  by_cases hx : x ∈ l
  · simp only [innerInsert, if_pos hx]
    constructor
    · exact fun h => Or.inl h
    · rintro (h | h)
      · exact h
      · exact h ▸ hx
  · simp [innerInsert, if_neg hx]

/-- Lookup in a concatenation whose left part lacks the key. -/
theorem omGet_append_right {β : Type} (l r : List (String × β)) (k : String)
    (hk : ∀ e ∈ l, e.1 ≠ k) : omGet (l ++ r) k = omGet r k := by
  induction l with
  | nil => rfl
  | cons e rest ih =>
    have he : ¬ e.1 = k := hk e (by simp)
    simp only [List.cons_append, omGet, if_neg he]
    exact ih (fun x hx => hk x (by simp [hx]))

/-- Deleting a key absent from the left part of a concatenation. -/
theorem omDelete_append_right {β : Type} (l r : List (String × β)) (k : String)
    (hk : ∀ e ∈ l, e.1 ≠ k) : omDelete (l ++ r) k = l ++ omDelete r k := by
  induction l with
  | nil => rfl
  | cons e rest ih =>
    have he : ¬ e.1 = k := hk e (by simp)
    simp only [List.cons_append, omDelete, if_neg he, List.append_eq]
    rw [ih (fun x hx => hk x (by simp [hx]))]

/-- Lookup finds the head of the right part when the left lacks its key. -/
theorem omGet_append_cons {β : Type} (l : List (String × β)) (e : String × β)
    (r : List (String × β)) (hk : ∀ x ∈ l, x.1 ≠ e.1) :
    omGet (l ++ e :: r) e.1 = some e.2 := by
  rw [omGet_append_right l (e :: r) e.1 hk]
  simp [omGet]

/-- Deleting the head key of the right part when the left lacks it. -/
theorem omDelete_append_cons {β : Type} (l : List (String × β)) (e : String × β)
    (r : List (String × β)) (hk : ∀ x ∈ l, x.1 ≠ e.1) :
    omDelete (l ++ e :: r) e.1 = l ++ r := by
  rw [omDelete_append_right l (e :: r) e.1 hk]
  simp [omDelete]

/-- Unfolding of the bind of M. -/
theorem M_bind_def {α β : Type} (x : M α) (f : α → M β) :
    x >>= f = fun h =>
      match x h with
      | .error e => .error e
      | .ok (a, h1) => f a h1 := rfl

/-- Unfolding of the pure of M. -/
theorem M_pure_def {α : Type} (a : α) : (pure a : M α) = fun h => .ok (a, h) := rfl

/-- Sequencing through a successful first step. -/
theorem M_bind_ok {α β : Type} (x : M α) (f : α → M β) (h h1 : Heap) (a : α)
    (hx : x h = .ok (a, h1)) : (x >>= f) h = f a h1 := by
  show (match x h with
    | Except.error e => Except.error e
    | Except.ok (a, h1) => f a h1) = f a h1
  rw [hx]

/-- Sequencing through a failing first step. -/
theorem M_bind_err {α β : Type} (x : M α) (f : α → M β) (h : Heap) (e : Fault)
    (hx : x h = .error e) : (x >>= f) h = .error e := by
  show (match x h with
    | Except.error e => Except.error e
    | Except.ok (a, h1) => f a h1) = .error e
  rw [hx]

/-- Run of buildOuter: the heap is untouched and the outer map binds
every destination descriptor's Alias field to an empty inner set,
leaving other keys to the accumulator. -/
theorem buildOuter_spec (h : Heap) (d : List (String × Nat)) :
    ∀ acc : List (String × List String),
    (∀ e ∈ d, (h.get? e.2).isSome = true) →
    ∃ o, buildOuter acc d h = .ok (o, h) ∧
      ∀ x, omGet o x =
        if x ∈ d.map (fun e => objAlias h e.2) then some [] else omGet acc x := by
  induction d with
  | nil =>
    intro acc _
    exact ⟨acc, rfl, by simp⟩
  | cons e rest ih =>
    intro acc hex
    have he : (h.get? e.2).isSome = true := hex e (by simp)
    obtain ⟨t, ht⟩ := Option.isSome_iff_exists.mp he
    obtain ⟨o, ho, hchar⟩ :=
      ih (omSet acc t.tblAlias []) (fun x hx => hex x (by simp [hx]))
    refine ⟨o, ?_, ?_⟩
    · cases e with
      | mk k a =>
        simp only [buildOuter, M_bind_def, readObj]
        simp only at ht
        rw [ht]
        exact ho
    · intro x
      rw [hchar x]
      have halias : objAlias h e.2 = t.tblAlias := by
        simp only [objAlias, ht]
      by_cases hx : x ∈ rest.map (fun e => objAlias h e.2)
      · simp [hx]
      · by_cases hxe : x = t.tblAlias
        · subst hxe
          simp only [List.map_cons, List.mem_cons, halias]
          rw [if_neg hx, omGet_omSet, if_pos rfl]
          simp
        · have hmem : ¬ (x = t.tblAlias ∨ x ∈ List.map (fun e => objAlias h e.2) rest) := by
            rintro (hh | hh)
            · exact hxe hh
            · exact hx hh
          simp only [List.map_cons, List.mem_cons, halias]
          rw [if_neg hx, omGet_omSet, if_neg hxe, if_neg hmem]

/-- Run of collectUnauthEntries: heap untouched; the inner set of the
branch table's alias gains the obligation descriptors' Alias fields,
every other key keeps its contents, and the key set is unchanged. -/
theorem collectUnauthEntries_spec (h : Heap) (tAlias : String)
    (entries : List (String × Nat)) :
    ∀ o : List (String × List String),
    (∀ en ∈ entries, (h.get? en.2).isSome = true) →
    (omGet o tAlias).isSome = true →
    ∃ o1, collectUnauthEntries o tAlias entries h = .ok (o1, h) ∧
      (∀ x, (omGet o1 x).isSome = (omGet o x).isSome) ∧
      (∀ x l1, omGet o1 x = some l1 →
        ∃ l0, omGet o x = some l0 ∧
          ∀ y, y ∈ l1 ↔
            y ∈ l0 ∨ (x = tAlias ∧ y ∈ entries.map (fun en => objAlias h en.2))) := by
  induction entries with
  | nil =>
    intro o _ _
    refine ⟨o, rfl, fun x => rfl, fun x l1 h1 => ⟨l1, h1, by simp⟩⟩
  | cons en rest ih =>
    intro o hex hsome
    have hen : (h.get? en.2).isSome = true := hex en (by simp)
    obtain ⟨ut, hut⟩ := Option.isSome_iff_exists.mp hen
    obtain ⟨inner, hinner⟩ := Option.isSome_iff_exists.mp hsome
    have halias : objAlias h en.2 = ut.tblAlias := by simp only [objAlias, hut]
    obtain ⟨o1, ho1, hsome1, hchar1⟩ :=
      ih (omSet o tAlias (innerInsert inner ut.tblAlias))
        (fun x hx => hex x (by simp [hx]))
        (by rw [omGet_omSet, if_pos rfl]; rfl)
    refine ⟨o1, ?_, ?_, ?_⟩
    · cases en with
      | mk k a =>
        simp only [collectUnauthEntries, M_bind_def, readObj]
        simp only at hut
        rw [hut]
        simp only [outerInsert, hinner, M_pure_def]
        exact ho1
    · intro x
      rw [hsome1 x, omGet_omSet]
      by_cases hx : x = tAlias
      · subst hx
        rw [if_pos rfl, hinner]
        rfl
      · rw [if_neg hx]
    · intro x l1 h1
      obtain ⟨l0, hl0, hmem⟩ := hchar1 x l1 h1
      by_cases hx : x = tAlias
      · subst hx
        rw [omGet_omSet, if_pos rfl] at hl0
        refine ⟨inner, hinner, ?_⟩
        intro y
        rw [hmem y]
        have : l0 = innerInsert inner ut.tblAlias := by
          injection hl0.symm
        subst this
        rw [mem_innerInsert]
        constructor
        · rintro ((hy | hy) | ⟨_, hy⟩)
          · exact Or.inl hy
          · refine Or.inr ⟨rfl, ?_⟩
            rw [List.map_cons, List.mem_cons]
            exact Or.inl (by rw [halias, hy])
          · refine Or.inr ⟨rfl, ?_⟩
            rw [List.map_cons, List.mem_cons]
            exact Or.inr hy
        · rintro (hy | ⟨_, hy⟩)
          · exact Or.inl (Or.inl hy)
          · rw [List.map_cons, List.mem_cons] at hy
            rcases hy with hy1 | hy1
            · exact Or.inl (Or.inr (by rw [hy1, halias]))
            · exact Or.inr ⟨rfl, hy1⟩
      · rw [omGet_omSet, if_neg hx] at hl0
        refine ⟨l0, hl0, ?_⟩
        intro y
        rw [hmem y]
        simp [hx]

/-- Membership in the obligation aliases a branch records for a
destination alias: contributed by some branch descriptor with that Alias
field. -/
theorem mem_branchOblAliases (h : Heap) (tAlias : String) (bl : Scope) (y : String) :
    y ∈ branchOblAliases h (some bl) tAlias ↔
      ∃ e ∈ bl, objAlias h e.2 = tAlias ∧ y ∈ oblValueAliases h e.2 := by
  have key : ∀ (l : Scope) (init : List String),
      (y ∈ l.foldl (fun acc e =>
        if objAlias h e.2 = tAlias then acc ++ oblValueAliases h e.2 else acc) init) ↔
      y ∈ init ∨ ∃ e ∈ l, objAlias h e.2 = tAlias ∧ y ∈ oblValueAliases h e.2 := by
    intro l
    induction l with
    | nil => intro init; simp
    | cons e rest ih =>
      intro init
      simp only [List.foldl_cons]
      rw [ih]
      by_cases he : objAlias h e.2 = tAlias
      · rw [if_pos he]
        simp only [List.mem_append, List.mem_cons]
        constructor
        · rintro ((hy | hy) | ⟨f, hf, hfa, hfy⟩)
          · exact Or.inl hy
          · exact Or.inr ⟨e, Or.inl rfl, he, hy⟩
          · exact Or.inr ⟨f, Or.inr hf, hfa, hfy⟩
        · rintro (hy | ⟨f, hf | hf, hfa, hfy⟩)
          · exact Or.inl (Or.inl hy)
          · exact Or.inl (Or.inr (hf ▸ hfy))
          · exact Or.inr ⟨f, hf, hfa, hfy⟩
      · rw [if_neg he]
        simp only [List.mem_cons]
        constructor
        · rintro (hy | ⟨f, hf, hfa, hfy⟩)
          · exact Or.inl hy
          · exact Or.inr ⟨f, Or.inr hf, hfa, hfy⟩
        · rintro (hy | ⟨f, hf | hf, hfa, hfy⟩)
          · exact Or.inl hy
          · exact absurd (hf ▸ hfa) he
          · exact Or.inr ⟨f, hf, hfa, hfy⟩
  simp only [branchOblAliases]
  rw [key bl []]
  simp

/-- Run of collectBranchTables over one branch scope: heap untouched,
key set of the accumulator preserved, and each inner set gains exactly
the obligation aliases this branch records for its key. -/
theorem collectBranchTables_spec (h : Heap) (bl : Scope) :
    ∀ o : List (String × List String),
    (∀ e ∈ bl, ∃ t, h.get? e.2 = some t ∧ (omGet o t.tblAlias).isSome = true ∧
      ∃ entries, t.unauth = some entries ∧
        ∀ en ∈ entries, (h.get? en.2).isSome = true) →
    ∃ o1, collectBranchTables o bl h = .ok (o1, h) ∧
      (∀ x, (omGet o1 x).isSome = (omGet o x).isSome) ∧
      (∀ x l1, omGet o1 x = some l1 →
        ∃ l0, omGet o x = some l0 ∧
          ∀ y, y ∈ l1 ↔
            y ∈ l0 ∨ ∃ e ∈ bl, objAlias h e.2 = x ∧ y ∈ oblValueAliases h e.2) := by
  induction bl with
  | nil =>
    intro o _
    exact ⟨o, rfl, fun x => rfl, fun x l1 h1 => ⟨l1, h1, by simp⟩⟩
  | cons e rest ih =>
    intro o hwf
    obtain ⟨k, a⟩ := e
    obtain ⟨t, ht, hsome, entries, hent, hens⟩ := hwf (k, a) (by simp)
    obtain ⟨omid, homid, hsomemid, hcharmid⟩ :=
      collectUnauthEntries_spec h t.tblAlias entries o hens hsome
    obtain ⟨o1, ho1, hsome1, hchar1⟩ := ih omid (by
      intro f hf
      obtain ⟨tf, htf, hsf, ef, hef, hensf⟩ := hwf f (by simp [hf])
      exact ⟨tf, htf, by rw [hsomemid]; exact hsf, ef, hef, hensf⟩)
    refine ⟨o1, ?_, ?_, ?_⟩
    · simp only [collectBranchTables, M_bind_def, readObj, ht, hent, getMap, M_pure_def]
      rw [homid]
      exact ho1
    · intro x
      rw [hsome1 x, hsomemid x]
    · intro x l1 h1
      obtain ⟨lmid, hlmid, hmem1⟩ := hchar1 x l1 h1
      obtain ⟨l0, hl0, hmem0⟩ := hcharmid x lmid hlmid
      refine ⟨l0, hl0, ?_⟩
      intro y
      rw [hmem1 y, hmem0 y]
      have ht' : h[a]? = some t := by rw [← List.get?_eq_getElem?]; exact ht
      have hal : objAlias h a = t.tblAlias := by simp [objAlias, ht']
      have hov : oblValueAliases h a = entries.map (fun en => objAlias h en.2) := by
        simp [oblValueAliases, ht', hent]
      constructor
      · rintro ((hy | ⟨hxeq, hy⟩) | ⟨f, hf, hfa, hfy⟩)
        · exact Or.inl hy
        · refine Or.inr ⟨(k, a), by simp, ?_, ?_⟩
          · rw [hal]; exact hxeq.symm
          · rw [hov]; exact hy
        · exact Or.inr ⟨f, by simp [hf], hfa, hfy⟩
      · rintro (hy | ⟨f, hf, hfa, hfy⟩)
        · exact Or.inl (Or.inl hy)
        · rcases List.mem_cons.mp hf with hf1 | hf1
          · subst hf1
            refine Or.inl (Or.inr ⟨?_, ?_⟩)
            · rw [hal] at hfa; exact hfa.symm
            · rw [hov] at hfy; exact hfy
          · exact Or.inr ⟨f, hf1, hfa, hfy⟩

/-- Run of the first pass over all branches: heap untouched, key set
preserved, and each inner set gains the obligation aliases some branch
records for its key. -/
theorem collectBranches_spec (h : Heap) (dstAliases : List String)
    (bs : List (Option Scope)) :
    ∀ o : List (String × List String),
    (∀ b ∈ bs, branchWF h dstAliases b) →
    (∀ x ∈ dstAliases, (omGet o x).isSome = true) →
    ∃ o1, collectBranches o bs h = .ok (o1, h) ∧
      (∀ x, (omGet o1 x).isSome = (omGet o x).isSome) ∧
      (∀ x l1, omGet o1 x = some l1 →
        ∃ l0, omGet o x = some l0 ∧
          ∀ y, y ∈ l1 ↔ y ∈ l0 ∨ ∃ b ∈ bs, y ∈ branchOblAliases h b x) := by
  induction bs with
  | nil =>
    intro o _ _
    exact ⟨o, rfl, fun x => rfl, fun x l1 h1 => ⟨l1, h1, by simp⟩⟩
  | cons b rest ih =>
    intro o hwf hdst
    obtain ⟨bl, hb, hble⟩ := hwf b (by simp)
    obtain ⟨omid, homid, hsomemid, hcharmid⟩ :=
      collectBranchTables_spec h bl o (by
        intro e he
        obtain ⟨t, ht, hta, entries, hent, hens⟩ := hble e he
        exact ⟨t, ht, hdst t.tblAlias hta, entries, hent, hens⟩)
    obtain ⟨o1, ho1, hsome1, hchar1⟩ := ih omid
      (fun b' hb' => hwf b' (by simp [hb']))
      (fun x hx => by rw [hsomemid x]; exact hdst x hx)
    refine ⟨o1, ?_, ?_, ?_⟩
    · subst hb
      simp only [collectBranches, M_bind_def, getMap, M_pure_def]
      rw [homid]
      exact ho1
    · intro x
      rw [hsome1 x, hsomemid x]
    · intro x l1 h1
      obtain ⟨lmid, hlmid, hmem1⟩ := hchar1 x l1 h1
      obtain ⟨l0, hl0, hmem0⟩ := hcharmid x lmid hlmid
      refine ⟨l0, hl0, ?_⟩
      intro y
      rw [hmem1 y, hmem0 y]
      constructor
      · rintro ((hy | hy) | ⟨f, hf, hfy⟩)
        · exact Or.inl hy
        · refine Or.inr ⟨b, by simp, ?_⟩
          rw [hb, mem_branchOblAliases]
          exact hy
        · exact Or.inr ⟨f, by simp [hf], hfy⟩
      · rintro (hy | ⟨f, hf, hfy⟩)
        · exact Or.inl (Or.inl hy)
        · rcases List.mem_cons.mp hf with hf1 | hf1
          · subst hf1
            rw [hb, mem_branchOblAliases] at hfy
            exact Or.inl (Or.inr hfy)
          · exact Or.inr ⟨f, hf1, hfy⟩


/-- Run of the deletion sweep over one destination descriptor's
obligation entries: with distinct keys and obligation descriptors keyed
by their own Alias fields, the sweep keeps exactly the obligations whose
alias the first pass recorded under the descriptor's alias. -/
theorem unionSweep_spec (h : Heap) (seen : List (String × List String))
    (tAlias : String) :
    ∀ (work kept : List (String × Nat)),
    (((kept ++ work).map (fun e => e.1)).Nodup) →
    (∀ e ∈ work, ∃ ut, h.get? e.2 = some ut ∧ ut.tblAlias = e.1) →
    unionSweep seen tAlias (kept ++ work) work h =
      .ok (kept ++ work.filter (fun e =>
        match omGet seen tAlias with
        | some inner => inner.contains e.1
        | Option.none => false), h) := by
  intro work
  induction work with
  | nil =>
    intro kept _ _
    simp [unionSweep]
    rfl
  | cons e rest ih =>
    intro kept hnd hres
    obtain ⟨ek, ua⟩ := e
    obtain ⟨ut, hut, huta⟩ := hres (ek, ua) (by simp)
    have hut' : List.get? h ua = some ut := hut
    have huta' : ut.tblAlias = ek := huta
    have hk : ∀ x ∈ kept, x.1 ≠ ek := by
      intro x hx hcon
      rw [List.map_append, List.nodup_append] at hnd
      exact hnd.2.2 (List.mem_map_of_mem _ hx) (by simp [hcon])
    have hcur : omGet (kept ++ (ek, ua) :: rest) ek = some ua :=
      omGet_append_cons kept (ek, ua) rest hk
    have hdel : omDelete (kept ++ (ek, ua) :: rest) ek = kept ++ rest :=
      omDelete_append_cons kept (ek, ua) rest hk
    have hndTail : (((kept ++ [(ek, ua)] ++ rest).map (fun e => e.1)).Nodup) := by
      rw [List.append_assoc]
      exact hnd
    have hndDel : (((kept ++ rest).map (fun e => e.1)).Nodup) := by
      refine List.Nodup.sublist ?_ hnd
      exact List.Sublist.map _ (List.Sublist.append_left (List.sublist_cons_self _ _) _)
    have hresTail : ∀ e ∈ rest, ∃ ut, h.get? e.2 = some ut ∧ ut.tblAlias = e.1 :=
      fun f hf => hres f (by simp [hf])
    simp only [unionSweep, hcur, Option.isSome_some, eq_self_iff_true, if_true]
    simp only [M_bind_def, readObj, hut', huta']
    by_cases hp : (match omGet seen tAlias with
        | some inner => inner.contains ek
        | Option.none => false) = true
    · rw [if_pos hp]
      rw [show kept ++ (ek, ua) :: rest = (kept ++ [(ek, ua)]) ++ rest from by
        rw [List.append_assoc]; rfl]
      rw [ih (kept ++ [(ek, ua)]) hndTail hresTail]
      rw [List.filter_cons]
      rw [if_pos (show (fun (e : String × Nat) =>
        match omGet seen tAlias with
        | some inner => inner.contains e.1
        | Option.none => false) (ek, ua) = true from hp)]
      rw [List.append_assoc]
      rfl
    · rw [if_neg hp, hdel]
      rw [ih kept hndDel hresTail]
      rw [List.filter_cons]
      rw [if_neg (show ¬ (fun (e : String × Nat) =>
        match omGet seen tAlias with
        | some inner => inner.contains e.1
        | Option.none => false) (ek, ua) = true from hp)]

/-- Reading the written address after a set, when the address was
valid. -/
theorem heapGet_set_self (h : Heap) :
    ∀ (a : Nat) (t t0 : TableObj), h.get? a = some t0 →
    (h.set a t).get? a = some t := by
  induction h with
  | nil => intro a t t0 h0; cases h0
  | cons x xs ih =>
    intro a t t0 h0
    cases a with
    | zero => rfl
    | succ a' => exact ih a' t t0 h0

/-- Reading another address after a set. -/
theorem heapGet_set_other (h : Heap) :
    ∀ (a b : Nat) (t : TableObj), b ≠ a →
    (h.set a t).get? b = h.get? b := by
  induction h with
  | nil => intro a b t _; rfl
  | cons x xs ih =>
    intro a b t hne
    cases a with
    | zero =>
      cases b with
      | zero => exact absurd rfl hne
      | succ b' => rfl
    | succ a' =>
      cases b with
      | zero => rfl
      | succ b' => exact ih a' b' t (fun hc => hne (by rw [hc]))

/-- Run of the second pass of the union combinator: every destination
descriptor's obligation map is replaced by its sweep-filtered entries,
and no other address changes. -/
theorem unionApply_spec (seen : List (String × List String)) :
    ∀ (d : List (String × Nat)) (h : Heap),
    ((d.map (fun e => e.2)).Nodup) →
    (∀ e ∈ d, ∃ t, h.get? e.2 = some t ∧ t.tblAlias = e.1 ∧
      ∃ entries, t.unauth = some entries ∧
        ((entries.map (fun x => x.1)).Nodup ∧
         ∀ en ∈ entries, ∃ ut, h.get? en.2 = some ut ∧ ut.tblAlias = en.1)) →
    ∃ h3, unionApply seen d h = .ok ((), h3) ∧
      (∀ a, a ∉ d.map (fun e => e.2) → h3.get? a = h.get? a) ∧
      (∀ e ∈ d, ∀ t entries, h.get? e.2 = some t → t.unauth = some entries →
        h3.get? e.2 = some { t with unauth := some (entries.filter (fun en =>
          match omGet seen e.1 with
          | some inner => inner.contains en.1
          | Option.none => false)) }) := by
  intro d
  induction d with
  | nil =>
    intro h _ _
    exact ⟨h, rfl, fun a _ => rfl, fun e he => absurd he (List.not_mem_nil e)⟩
  | cons e d' ih =>
    intro h hnd hres
    obtain ⟨k, a⟩ := e
    obtain ⟨t, ht, hta, entries, hent, hksnd, hens⟩ := hres (k, a) (by simp)
    have ht' : List.get? h a = some t := ht
    have hanotin : a ∉ d'.map (fun e => e.2) := by
      rw [List.map_cons, List.nodup_cons] at hnd
      exact hnd.1
    have hsweep := unionSweep_spec h seen t.tblAlias entries [] (by simpa using hksnd)
      hens
    rw [List.nil_append, List.nil_append] at hsweep
    have hwrite : ∀ b, b ≠ a →
        (h.set a { t with unauth := some (entries.filter (fun en =>
          match omGet seen t.tblAlias with
          | some inner => inner.contains en.1
          | Option.none => false)) }).get? b = h.get? b :=
      fun b hb => heapGet_set_other h a b _ hb
    have hwself :
        (h.set a { t with unauth := some (entries.filter (fun en =>
          match omGet seen t.tblAlias with
          | some inner => inner.contains en.1
          | Option.none => false)) }).get? a =
        some { t with unauth := some (entries.filter (fun en =>
          match omGet seen t.tblAlias with
          | some inner => inner.contains en.1
          | Option.none => false)) } :=
      heapGet_set_self h a _ t ht
    obtain ⟨h3, hrun, hout, hdst⟩ := ih
      (h.set a { t with unauth := some (entries.filter (fun en =>
        match omGet seen t.tblAlias with
        | some inner => inner.contains en.1
        | Option.none => false)) })
      (by
        rw [List.map_cons, List.nodup_cons] at hnd
        exact hnd.2)
      (by
        intro f hf
        obtain ⟨tf, htf, htfa, ef, hef, hkf, hensf⟩ := hres f (by simp [hf])
        have hfa : f.2 ≠ a := by
          intro hc
          exact hanotin (hc ▸ List.mem_map_of_mem (fun e => e.2) hf)
        refine ⟨tf, by rw [hwrite f.2 hfa]; exact htf, htfa, ef, hef, hkf, ?_⟩
        intro en hen
        obtain ⟨ut, hut, huta⟩ := hensf en hen
        by_cases hena : en.2 = a
        · refine ⟨_, by rw [hena]; exact hwself, ?_⟩
          have hv2 : ut = t := by
            rw [hena, ht] at hut
            injection hut with hv
            exact hv.symm
          rw [← huta, hv2]
        · exact ⟨ut, by rw [hwrite en.2 hena]; exact hut, huta⟩)
    refine ⟨h3, ?_, ?_, ?_⟩
    · simp only [unionApply, M_bind_def, readObj, ht', hent, getMap, M_pure_def,
        hsweep, writeObj]
      exact hrun
    · intro b hb
      have hb1 : b ∉ d'.map (fun e => e.2) := fun hc => hb (by simp [hc])
      have hb2 : b ≠ a := fun hc => hb (by simp [hc])
      rw [hout b hb1, hwrite b hb2]
    · intro f hf tf ef htf hef
      rcases List.mem_cons.mp hf with hf1 | hf1
      · subst hf1
        have htt : tf = t := by
          rw [ht] at htf
          injection htf with hv
          exact hv.symm
        subst htt
        have hee : ef = entries := by
          rw [hent] at hef
          injection hef with hv
          exact hv.symm
        subst hee
        show List.get? h3 a = _
        rw [hout a hanotin, hwself]
        simp only [hta]
      · have hfa : f.2 ≠ a := by
          intro hc
          exact hanotin (hc ▸ List.mem_map_of_mem (fun e => e.2) hf1)
        exact hdst f hf1 tf ef (by rw [hwrite f.2 hfa]; exact htf) hef

/-- Run of the final pass of authorizeBoolExpr over a scope whose
descriptors all have initialized obligation maps: it reports false
exactly when every descriptor's obligation map is empty, and leaves the
heap alone. -/
theorem anyScopeUnauthorized_spec (h : Heap) :
    ∀ s : Scope, (∀ e ∈ s, (oblKeysAt h e.2).isSome = true) →
    ∃ b, anyScopeUnauthorized s h = .ok (b, h) ∧
      (b = false ↔ ∀ e ∈ s, oblKeysAt h e.2 = some []) := by
  intro s
  induction s with
  | nil =>
    intro _
    exact ⟨false, rfl, by simp⟩
  | cons e rest ih =>
    intro hws
    obtain ⟨k, a⟩ := e
    have hk' : (oblKeysAt h a).isSome = true := hws (k, a) (by simp)
    cases hh : List.get? h a with
    | none =>
      simp only [oblKeysAt, hh] at hk'
      cases hk'
    | some t =>
      cases hu : t.unauth with
      | none =>
        simp only [oblKeysAt, hh, hu] at hk'
        cases hk'
      | some entries =>
        have hobl : oblKeysAt h a = some (entries.map (fun e => e.1)) := by
          simp only [oblKeysAt, hh, hu]
        cases entries with
        | nil =>
          obtain ⟨b, hb, hiff⟩ := ih (fun f hf => hws f (by simp [hf]))
          refine ⟨b, ?_, ?_⟩
          · simp only [anyScopeUnauthorized, M_bind_def, readObj, hh, hu, getMap,
              M_pure_def, List.length_nil, ne_eq, not_true_eq_false, if_neg,
              not_false_eq_true]
            exact hb
          · rw [hiff]
            simp only [List.forall_mem_cons]
            constructor
            · intro hr
              exact ⟨by simpa using hobl, hr⟩
            · intro hr
              exact hr.2
        | cons x xs =>
          refine ⟨true, ?_, ?_⟩
          · simp only [anyScopeUnauthorized, M_bind_def, readObj, hh, hu, getMap,
              M_pure_def, List.length_cons, ne_eq, if_pos]
            simp
          · constructor
            · intro hc
              cases hc
            · intro hall
              have h2 : oblKeysAt h a = some [] := hall (k, a) (by simp)
              rw [hobl] at h2
              simp at h2

/-- Filtering by a predicate on keys commutes with projecting keys. -/
theorem map_fst_filter_key {β : Type} (q : String → Bool) :
    ∀ l : List (String × β),
    (l.filter (fun e => q e.1)).map (fun e => e.1) = (l.map (fun e => e.1)).filter q := by
  intro l
  induction l with
  | nil => rfl
  | cons e rest ih =>
    by_cases hq : q e.1 = true
    · simp [List.filter_cons, hq, ih]
    · simp [List.filter_cons, hq, ih]

/-- Run of UpdateUnauthorizedTablesByUnion over a well-formed destination
scope and branch list: the destination descriptors' obligation maps are
filtered down to exactly the obligations some branch still records (by
alias), no other address changes, and the heap reads back deterministically. -/
theorem UpdateUnauthorizedTablesByUnion_spec (h : Heap) (copied : Scope)
    (bs : List (Option Scope))
    (hwf : dstWF h copied)
    (hbwf : ∀ b ∈ bs, branchWF h (copied.map (fun e => e.1)) b) :
    ∃ h3, UpdateUnauthorizedTablesByUnion (some copied) bs h = .ok ((), h3) ∧
      (∀ a, a ∉ copied.map (fun e => e.2) → h3.get? a = h.get? a) ∧
      (∀ e ∈ copied, ∀ ks, oblKeysAt h e.2 = some ks →
        oblKeysAt h3 e.2 = some (ks.filter (fun o =>
          bs.any (fun b => (branchOblAliases h b e.1).contains o)))) := by
  have hex : ∀ e ∈ copied, (h.get? e.2).isSome = true := by
    intro e he
    obtain ⟨t, ht, _⟩ := hwf.2 e he
    rw [ht]
    rfl
  have hmapeq : copied.map (fun e => objAlias h e.2) = copied.map (fun e => e.1) := by
    refine List.map_congr_left ?_
    intro e he
    obtain ⟨t, ht, hta, _⟩ := hwf.2 e he
    have ht' : h[e.2]? = some t := by rw [← List.get?_eq_getElem?]; exact ht
    simp only [objAlias, List.get?_eq_getElem?, ht']
    exact hta
  obtain ⟨o0, ho0, hchar0⟩ := buildOuter_spec h copied [] hex
  have hsome0 : ∀ x ∈ copied.map (fun e => e.1), (omGet o0 x).isSome = true := by
    intro x hx
    rw [hchar0 x, hmapeq, if_pos hx]
    rfl
  obtain ⟨o1, ho1, hsome1, hchar1⟩ :=
    collectBranches_spec h (copied.map (fun e => e.1)) bs o0 hbwf hsome0
  have hseen : ∀ x ∈ copied.map (fun e => e.1), ∃ l1, omGet o1 x = some l1 ∧
      ∀ y, y ∈ l1 ↔ ∃ b ∈ bs, y ∈ branchOblAliases h b x := by
    intro x hx
    have hs : (omGet o1 x).isSome = true := by
      rw [hsome1 x]
      exact hsome0 x hx
    obtain ⟨l1, hl1⟩ := Option.isSome_iff_exists.mp hs
    obtain ⟨l0, hl00, hmem⟩ := hchar1 x l1 hl1
    have hl0e : l0 = [] := by
      rw [hchar0 x, hmapeq, if_pos hx] at hl00
      injection hl00 with hv
      exact hv.symm
    refine ⟨l1, hl1, ?_⟩
    intro y
    rw [hmem y, hl0e]
    simp
  obtain ⟨h3, happ, hout, hdst⟩ := unionApply_spec o1 copied h hwf.1 (by
    intro e he
    obtain ⟨t, ht, hta, entries, hent, hkn, hens⟩ := hwf.2 e he
    exact ⟨t, ht, hta, entries, hent, hkn, hens⟩)
  refine ⟨h3, ?_, hout, ?_⟩
  · have e1 : UpdateUnauthorizedTablesByUnion (some copied) bs h =
        (buildOuter [] copied >>= fun o0 =>
          collectBranches o0 bs >>= fun o1 => unionApply o1 copied) h := rfl
    have e2 : (buildOuter [] copied >>= fun o0 =>
        collectBranches o0 bs >>= fun o1 => unionApply o1 copied) h =
        (collectBranches o0 bs >>= fun o1 => unionApply o1 copied) h :=
      M_bind_ok _ _ h h o0 ho0
    have e3 : (collectBranches o0 bs >>= fun o1 => unionApply o1 copied) h =
        unionApply o1 copied h :=
      M_bind_ok _ _ h h o1 ho1
    rw [e1, e2, e3]
    exact happ
  · intro e he ks hks
    obtain ⟨t, ht, hta, entries, hent, hkn, hens⟩ := hwf.2 e he
    have hks2 : ks = entries.map (fun x => x.1) := by
      have : oblKeysAt h e.2 = some (entries.map (fun x => x.1)) := by
        simp only [oblKeysAt, ht, hent]
      rw [this] at hks
      injection hks with hv
      exact hv.symm
    obtain ⟨l1, hl1, hl1mem⟩ := hseen e.1 (List.mem_map_of_mem (fun e => e.1) he)
    have hd := hdst e he t entries ht hent
    have hpred : ∀ en ∈ entries,
        (match omGet o1 e.1 with
         | some inner => inner.contains en.1
         | Option.none => false) =
        bs.any (fun b => (branchOblAliases h b e.1).contains en.1) := by
      intro en _
      rw [hl1]
      rw [Bool.eq_iff_iff]
      rw [List.elem_iff, List.any_eq_true]
      rw [hl1mem en.1]
      constructor
      · rintro ⟨b, hb, hy⟩
        exact ⟨b, hb, List.elem_iff.mpr hy⟩
      · rintro ⟨b, hb, hy⟩
        exact ⟨b, hb, List.elem_iff.mp hy⟩
    have hfilter :
        entries.filter (fun en =>
          match omGet o1 e.1 with
          | some inner => inner.contains en.1
          | Option.none => false) =
        entries.filter (fun en =>
          bs.any (fun b => (branchOblAliases h b e.1).contains en.1)) :=
      List.filter_congr hpred
    rw [hks2]
    have hoblk : oblKeysAt h3 e.2 =
        some ((entries.filter (fun en =>
          bs.any (fun b => (branchOblAliases h b e.1).contains en.1))).map
            (fun x => x.1)) := by
      simp only [oblKeysAt, hd, hfilter]
    rw [hoblk]
    exact congrArg some (map_fst_filter_key
      (fun o => bs.any (fun b => (branchOblAliases h b e.1).contains o)) entries)

/-- C4.  On an OR boolean expression the code authorizes every branch
against the same incoming scope, deep-copies that scope, and combines the
branch outcomes with UpdateUnauthorizedTablesByUnion: each copied
descriptor's obligation-map keys become exactly the original keys some
branch still records as unauthorized (by descriptor alias), so an
obligation vanishes only if every branch cleared it, and the OR is
Authorized exactly when every copied descriptor's obligation map emptied
— the union semantics of the claim. -/
theorem C4_or_union_of_branch_obligations
    (fuel : Nat) (args : List Node) (scope copied : Scope) (neg : Bool)
    (u : UserInfo) (h0 h1 h2 : Heap) (bs : List (Option Scope))
    (hcopy : DeepCopy fuel (some scope) h0 = .ok (some copied, h1))
    (hbr : authorizeBoolArgsCollect fuel args (some scope) neg u h1 = .ok (bs, h2))
    (hwf : dstWF h2 copied)
    (hbwf : ∀ b ∈ bs, branchWF h2 (copied.map (fun e => e.1)) b) :
    ∃ res h3,
      authorizeBoolExpr (fuel + 1) (some (.orExpr, args)) (some scope) neg u h0 =
        .ok (res, h3) ∧
      res.tables = some copied ∧
      (∀ e ∈ copied, ∀ ks, oblKeysAt h2 e.2 = some ks →
        oblKeysAt h3 e.2 = some (ks.filter (fun o =>
          bs.any (fun b => (branchOblAliases h2 b e.1).contains o)))) ∧
      (∀ e ∈ copied, ∀ ks ks3, oblKeysAt h2 e.2 = some ks →
        oblKeysAt h3 e.2 = some ks3 →
        ∀ o ∈ ks, o ∉ ks3 → ∀ b ∈ bs, o ∉ branchOblAliases h2 b e.1) ∧
      (res.authorized = true ↔ ∀ e ∈ copied, oblKeysAt h3 e.2 = some []) := by
  obtain ⟨h3, hU, hout, hdst⟩ :=
    UpdateUnauthorizedTablesByUnion_spec h2 copied bs hwf hbwf
  have hkeys : ∀ e ∈ copied, ∃ ks, oblKeysAt h2 e.2 = some ks := by
    intro e he
    obtain ⟨t, ht, hta, entries, hent, _⟩ := hwf.2 e he
    exact ⟨entries.map (fun x => x.1), by simp only [oblKeysAt, ht, hent]⟩
  have hkeys3 : ∀ e ∈ copied, (oblKeysAt h3 e.2).isSome = true := by
    intro e he
    obtain ⟨ks, hks⟩ := hkeys e he
    rw [hdst e he ks hks]
    rfl
  obtain ⟨anyBad, hany, hanyiff⟩ := anyScopeUnauthorized_spec h3 copied hkeys3
  refine ⟨AuthResult.mk (true && !anyBad) (some copied) Option.none, h3,
    ?_, rfl, hdst, ?_, ?_⟩
  · have e1 : authorizeBoolExpr (fuel + 1) (some (.orExpr, args)) (some scope) neg u h0 =
        (DeepCopy fuel (some scope) >>= fun copiedO =>
          authorizeBoolArgsCollect fuel args (some scope) neg u >>= fun branches =>
            UpdateUnauthorizedTablesByUnion copiedO branches >>= fun _ =>
              pure true >>= fun y =>
                getMap copiedO >>= fun cl =>
                  anyScopeUnauthorized cl >>= fun anyBad2 =>
                    pure (AuthResult.mk (y && !anyBad2) copiedO Option.none)) h0 := by
      rfl
    have E2 : authorizeBoolExpr (fuel + 1) (some (.orExpr, args)) (some scope) neg u h0 =
        (authorizeBoolArgsCollect fuel args (some scope) neg u >>= fun branches =>
          UpdateUnauthorizedTablesByUnion (some copied) branches >>= fun _ =>
            pure true >>= fun y =>
              getMap (some copied) >>= fun cl =>
                anyScopeUnauthorized cl >>= fun anyBad2 =>
                  pure (AuthResult.mk (y && !anyBad2) (some copied) Option.none)) h1 :=
      e1.trans (M_bind_ok _ _ h0 h1 (some copied) hcopy)
    have E3 : authorizeBoolExpr (fuel + 1) (some (.orExpr, args)) (some scope) neg u h0 =
        (UpdateUnauthorizedTablesByUnion (some copied) bs >>= fun _ =>
          pure true >>= fun y =>
            getMap (some copied) >>= fun cl =>
              anyScopeUnauthorized cl >>= fun anyBad2 =>
                pure (AuthResult.mk (y && !anyBad2) (some copied) Option.none)) h2 :=
      E2.trans (M_bind_ok _ _ h1 h2 bs hbr)
    have E4 : authorizeBoolExpr (fuel + 1) (some (.orExpr, args)) (some scope) neg u h0 =
        (pure true >>= fun y =>
          getMap (some copied) >>= fun cl =>
            anyScopeUnauthorized cl >>= fun anyBad2 =>
              pure (AuthResult.mk (y && !anyBad2) (some copied) Option.none)) h3 :=
      E3.trans (M_bind_ok _ _ h2 h3 () hU)
    have E5 : authorizeBoolExpr (fuel + 1) (some (.orExpr, args)) (some scope) neg u h0 =
        (getMap (some copied) >>= fun cl =>
          anyScopeUnauthorized cl >>= fun anyBad2 =>
            pure (AuthResult.mk (true && !anyBad2) (some copied) Option.none)) h3 :=
      E4.trans (M_bind_ok _ _ h3 h3 true rfl)
    have E6 : authorizeBoolExpr (fuel + 1) (some (.orExpr, args)) (some scope) neg u h0 =
        (anyScopeUnauthorized copied >>= fun anyBad2 =>
          pure (AuthResult.mk (true && !anyBad2) (some copied) Option.none)) h3 :=
      E5.trans (M_bind_ok _ _ h3 h3 copied rfl)
    exact E6.trans (M_bind_ok _ _ h3 h3 anyBad hany)
  · intro e he ks ks3 hks hks3 o ho hno b hb hmem
    have h4 := hdst e he ks hks
    rw [h4] at hks3
    injection hks3 with hv
    apply hno
    rw [← hv, List.mem_filter]
    refine ⟨ho, ?_⟩
    rw [List.any_eq_true]
    exact ⟨b, hb, List.elem_iff.mpr hmem⟩
  · show (true && !anyBad) = true ↔ _
    rw [Bool.true_and]
    cases anyBad with
    | false =>
      simp only [Bool.not_false]
      constructor
      · intro _
        exact hanyiff.mp rfl
      · intro _
        trivial
    | true =>
      simp only [Bool.not_true]
      constructor
      · intro hc
        cases hc
      · intro hall
        exact absurd (hanyiff.mpr hall) (by decide)

/-- Closed instance of the OR union-combinator characterization: student
identity 1, OR of id = 1 (cleared) and id = 2 (kept), over the obligated
student scope. -/
theorem C4_or_union_of_branch_obligations_witness :
    ∃ res h3,
      authorizeBoolExpr (39 + 1) (some (.orExpr, c4args)) (some scopeStudent) false
        studentUser heapStudent = .ok (res, h3) ∧
      res.tables = some c4copied ∧
      (∀ e ∈ c4copied, ∀ ks, oblKeysAt c4h2 e.2 = some ks →
        oblKeysAt h3 e.2 = some (ks.filter (fun o =>
          c4bs.any (fun b => (branchOblAliases c4h2 b e.1).contains o)))) ∧
      (∀ e ∈ c4copied, ∀ ks ks3, oblKeysAt c4h2 e.2 = some ks →
        oblKeysAt h3 e.2 = some ks3 →
        ∀ o ∈ ks, o ∉ ks3 → ∀ b ∈ c4bs, o ∉ branchOblAliases c4h2 b e.1) ∧
      (res.authorized = true ↔ ∀ e ∈ c4copied, oblKeysAt h3 e.2 = some []) :=
  C4_or_union_of_branch_obligations 39 c4args scopeStudent c4copied false studentUser
    heapStudent c4h1 c4h2 c4bs
    (by rfl)
    (by rfl)
    (by
      constructor
      · decide
      · intro e he
        simp only [c4copied, List.mem_singleton] at he
        subst he
        refine ⟨_, rfl, rfl, [("student", 3)], rfl, ?_, ?_⟩
        · decide
        · intro en hen
          rw [List.mem_singleton] at hen
          subst hen
          exact ⟨_, rfl, rfl⟩)
    (by
      intro b hb
      simp only [c4bs] at hb
      rcases List.mem_cons.mp hb with h1 | h1
      · subst h1
        refine ⟨[("student", 4)], rfl, ?_⟩
        intro e he
        rw [List.mem_singleton] at he
        subst he
        refine ⟨_, rfl, ?_, [], rfl, ?_⟩
        · decide
        · intro en hen
          cases hen
      · rw [List.mem_singleton] at h1
        subst h1
        refine ⟨[("student", 6)], rfl, ?_⟩
        intro e he
        rw [List.mem_singleton] at he
        subst he
        refine ⟨_, rfl, ?_, [("student", 7)], rfl, ?_⟩
        · decide
        · intro en hen
          rw [List.mem_singleton] at hen
          subst hen
          rfl)
